import Mathlib

/-!
# cwsdata: the indentation-delimited tree format of `src/src/cwsdata.h`

A shallow embedding of `cwsdata::Node`, `cwsdata::parse_file`,
`cwsdata::_write_nodes` and `cwsdata::write_file`, and theorems about them.

Conventions of the embedding.

* `std::string` is `List Char` (abbreviated `Str`).  All characters the code
  inspects (`' '`, `'\t'`, `'#'`, `':'`, `'['`, `'\n'`) are ASCII.
* A file is its content, a `Str`; opening failures are outside the model.
* The `int` field `depth` is an `Int`, and the parser's `int line_depth` a `Nat`
  (it would only overflow on a line with `2^31` leading blanks).  The sum
  `depth+1` of the methods that create a child is the 32-bit addition `int_add`,
  computed modulo `2^32`.
* `size_t` subtraction is done modulo `2^64` (`size_sub`).
* `bool list;` is initialised by no constructor, so it is an `Option Bool`:
  `none` until the parser assigns `true`.
* The result of `parse_file` is the object `root` itself (the copy at
  `return root;` is elided).
* A reference returned by `get_child` / `operator[]` is a `Slot`: the position of a
  child or the function-local `static` `dummyNode`, whose state is passed explicitly.
* A call that can throw or that the language leaves undefined ends in an `Outcome`.
  `std::stoi` is embedded from its definition in the C++ standard.
-/

namespace cwsdata

/-- The type `std::string`. -/
abbrev Str := List Char

/-- The class `cwsdata::Node` (fields `name`, `value`, `list`, `depth`, `children`). -/
structure Node where
  name : Str
  value : Str
  list : Option Bool
  depth : Int
  children : List Node

/-- Constructor `Node(name, value, depth)`: no children, `list` left unset. -/
def Node.new (name value : Str) (depth : Int) : Node :=
  { name := name, value := value, list := none, depth := depth, children := [] }

/-- Default constructor `Node() : depth(-1)`. -/
def Node.default : Node :=
  { name := [], value := [], list := none, depth := -1, children := [] }

/-- The call `children.push_back(std::move(child))` on a node. -/
def Node.push_back (n child : Node) : Node :=
  { n with children := n.children ++ [child] }

/-- The sum `a + b` of two `int` operands as the compiled code computes it: 32-bit
two's complement, modulo `2^32`, so that `INT_MAX + 1` is `INT_MIN` (the language
standard leaves a signed overflow undefined). -/
def int_add (a b : Int) : Int := (a + b + 2 ^ 31) % 2 ^ 32 - 2 ^ 31

/-- Method `create_node(name, value)`: `children.push_back` of
`Node(name, value, depth+1)`, the sum taken on `int`. -/
def Node.create_node (n : Node) (name value : Str) : Node :=
  n.push_back (Node.new name value (int_add n.depth 1))

/-- The test `c == ' ' || c == '\t'`. -/
def is_blank (c : Char) : Bool := c == ' ' || c == '\t'

/-- Number of leading blanks: the loop
`while (i < line.size() && (line[i] == ' ' || line[i] == '\t')) i++` from `i = 0`. -/
def count_blanks : Str → Nat
  | [] => 0
  | c :: rest => if is_blank c then count_blanks rest + 1 else 0

/-- The same loop started at position `pos`. -/
def skip_blanks (line : Str) (pos : Nat) : Nat := pos + count_blanks (line.drop pos)

/-- The call `line.find(c)`: position of the first `c`, `none` for `npos`. -/
def find : Str → Char → Option Nat
  | [], _ => none
  | x :: rest, c => if x = c then some 0 else (find rest c).map (· + 1)

/-- Subtraction of two `size_t` values (64 bit, wrapping). -/
def size_sub (a b : Nat) : Nat := (a + 2 ^ 64 - b) % 2 ^ 64

/-- The call `s.substr(pos, n)` for `pos ≤ s.size()`: at most `n` characters from `pos`. -/
def substr (s : Str) (pos n : Nat) : Str := (s.drop pos).take n

/-- The lines that repeated `std::getline(stream, line)` reads from a file content:
the text before each `'\n'`, and the text after the last one when it is not empty. -/
def getlines : Str → List Str
  | [] => []
  | c :: rest =>
    if c = '\n' then [] :: getlines rest
    else
      match getlines rest with
      | [] => [[c]]
      | l :: ls => (c :: l) :: ls

/-! ## parse_file -/

/-- The local `line_depth` of `parse_file`. -/
def line_depth (line : Str) : Nat := skip_blanks line 0

/-- The local `name` of `parse_file`, for the colon position `end_name_colon`. -/
def field_name (line : Str) (end_name_colon : Nat) : Str :=
  substr line (line_depth line) (size_sub end_name_colon (line_depth line))

/-- The local `value` of `parse_file`, for the colon position `end_name_colon`. -/
def field_value (line : Str) (end_name_colon : Nat) : Str :=
  let begin_value_pos := skip_blanks line (end_name_colon + 1)
  let end_pos :=
    match find line '#' with
    | some possible_comment_pos => possible_comment_pos
    | none => line.length
  substr line begin_value_pos (size_sub end_pos begin_value_pos)

/-- The node `std::make_unique<Node>(name, value, line_depth)` of `parse_file`. -/
def field_node (line : Str) (end_name_colon : Nat) : Node :=
  Node.new (field_name line end_name_colon) (field_value line end_name_colon) (line_depth line)

/-!
The state of the loop of `parse_file` is `node_stack`.  Every pointer on that
stack points to the last child of the node the entry below points to (a node is
pushed in the same step in which it is appended to the children of the top, and
children are only ever appended to the top).  The stack is therefore embedded as
the list of the open nodes, top first and `root` last, each one holding all its
children except the open one above it; popping an entry puts it back as the last
child of the entry below, and `return root` closes all entries.  The empty list
is the empty stack, on which `top()` is undefined: the functions return `none`.
-/

/-- The loop `while (line_depth <= top()->depth && top()->depth >= 0) pop();`
with `top` the current top and `below` the entries under it. -/
def unwind_from (d : Int) (top : Node) : List Node → Option (List Node)
  | [] => if d ≤ top.depth ∧ 0 ≤ top.depth then none else some [top]
  | next :: below =>
    if d ≤ top.depth ∧ 0 ≤ top.depth then unwind_from d (next.push_back top) below
    else some (top :: next :: below)

/-- The unwinding loop on a whole stack. -/
def unwind (d : Int) : List Node → Option (List Node)
  | [] => none
  | top :: below => unwind_from d top below

/-- One iteration of the `while (std::getline(stream, line))` loop of `parse_file`. -/
def parse_line (node_stack : List Node) (line : Str) : Option (List Node) :=
  if line = [] then some node_stack
  else if line.head? = some '#' then some node_stack
  else
    match unwind (line_depth line) node_stack with
    | none => none
    | some [] => none
    | some (top :: below) =>
      if (find line '[').isSome then some ({ top with list := some true } :: below)
      else
        match find line ':' with
        | none => some (top :: below)
        | some end_name_colon => some (field_node line end_name_colon :: top :: below)

/-- The whole loop: all lines in order. -/
def parse_lines : List Node → List Str → Option (List Node)
  | node_stack, [] => some node_stack
  | node_stack, line :: rest =>
    match parse_line node_stack line with
    | none => none
    | some next_stack => parse_lines next_stack rest

/-- Puts the open node `top` and all entries below it back together. -/
def close_from (top : Node) : List Node → Node
  | [] => top
  | next :: below => close_from (next.push_back top) below

/-- The object `root` when the loop ends with the given stack. -/
def close : List Node → Option Node
  | [] => none
  | top :: below => some (close_from top below)

/-- The initial `Node root("root", "", -1)`. -/
def root_node : Node := Node.new "root".toList [] (-1)

/-- The function `parse_file`, on the content of the file. -/
def parse_file (text : Str) : Option Node :=
  match parse_lines [root_node] (getlines text) with
  | none => none
  | some node_stack => close node_stack

/-! ## write_file -/

/-- The function `_write_nodes(root, stream, depth)`: the text written to the stream. -/
def _write_nodes (root : Node) (depth : Nat) : Str :=
  match root with
  | ⟨name, value, _, _, children⟩ =>
    List.replicate depth '\t' ++ name ++ ": ".toList ++ value ++ ['\n'] ++ write_all children (depth + 1)
where
  /-- The loop `for (const auto& node : root.children) _write_nodes(*node, stream, depth+1)`. -/
  write_all : List Node → Nat → Str
    | [], _ => []
    | node :: rest, depth => _write_nodes node depth ++ write_all rest depth

/-- The function `write_file`: the content of the file written. -/
def write_file (root : Node) : Str := _write_nodes.write_all root.children 0

/-! ## Vocabulary of the properties -/

/-- Pre-order traversal of a tree: the node itself, then the traversals of its
children, in child order. -/
def preorder : Node → List Node
  | ⟨name, value, list, depth, children⟩ =>
    ⟨name, value, list, depth, children⟩ :: preorder_all children
where
  /-- Pre-order traversal of a list of trees, one after the other. -/
  preorder_all : List Node → List Node
    | [] => []
    | node :: rest => preorder node ++ preorder_all rest

/-- Pre-order traversal that records with every node its nesting level: `level`
for the node itself, one more for each generation below it. -/
def with_levels (level : Nat) : Node → List (Nat × Node)
  | ⟨name, value, list, depth, children⟩ =>
    (level, ⟨name, value, list, depth, children⟩) :: levels_all (level + 1) children
where
  /-- The same for a list of trees that all sit at nesting level `level`. -/
  levels_all (level : Nat) : List Node → List (Nat × Node)
    | [] => []
    | node :: rest => with_levels level node ++ levels_all level rest

/-- The line of a node in a written file: `tabs` tab characters, the name, `": "`,
the value and the line terminator. -/
def node_line (tabs : Nat) (n : Node) : Str :=
  List.replicate tabs '\t' ++ n.name ++ [':', ' '] ++ n.value ++ ['\n']

/-- The depth invariant of the data model below a node: every child is one level
deeper than its parent. -/
def depth_exact : Node → Bool
  | ⟨_, _, _, depth, children⟩ => exact_all depth children
where
  /-- Every tree of the list has depth `parent + 1` and satisfies the invariant. -/
  exact_all (parent : Int) : List Node → Bool
    | [] => true
    | node :: rest => decide (node.depth = parent + 1) && depth_exact node && exact_all parent rest

/-- The name, value and depth of a node. -/
def Node.key (n : Node) : Str × Str × Int := (n.name, n.value, n.depth)

/-- The names, values and depths of the nodes of a tree, in pre-order. -/
def keys (n : Node) : List (Str × Str × Int) := (preorder n).map Node.key

/-- A line that `parse_file` skips before looking at its indentation: an empty
line, or a line whose first character is `'#'`. -/
def is_skipped (line : Str) : Bool := decide (line = []) || decide (line.head? = some '#')

/-- A field line: a non-empty line that does not start with `'#'`, contains `':'`
and contains no `'['`. -/
def is_field_line (line : Str) : Bool :=
  !is_skipped line && decide (':' ∈ line) && !decide ('[' ∈ line)

/-- The node that `parse_file` makes for a field line: the name, value and depth
it computes with the position of the first `':'` of the line. -/
def line_node (line : Str) : Node := field_node line ((find line ':').getD 0)

/-- Every child lies deeper than its parent: `parent depth + 1 ≤ child depth`,
at every node of the tree. -/
def depth_incr : Node → Bool
  | ⟨_, _, _, depth, children⟩ => incr_all depth children
where
  /-- Every tree of the list has depth at least `parent + 1` and satisfies `depth_incr`. -/
  incr_all (parent : Int) : List Node → Bool
    | [] => true
    | node :: rest => decide (parent + 1 ≤ node.depth) && depth_incr node && incr_all parent rest

/-- The tree with the `list` field of every node unset: what remains is the name,
value and depth of every node and the order of the children. -/
def unflag : Node → Node
  | ⟨name, value, _, depth, children⟩ => ⟨name, value, none, depth, unflag_all children⟩
where
  /-- The same for a list of trees. -/
  unflag_all : List Node → List Node
    | [] => []
    | node :: rest => unflag node :: unflag_all rest

/-- The text starts with neither a space nor a tab. -/
def no_leading_blank : Str → Bool
  | [] => true
  | c :: _ => !is_blank c

/-- A name that survives a round trip: no `':'`, `'#'`, `'['` or newline, no leading
space or tab (and a length that a `size_t` holds). -/
def name_ok (name : Str) : Bool :=
  !decide (':' ∈ name) && !decide ('#' ∈ name) && !decide ('[' ∈ name) &&
  !decide ('\n' ∈ name) && no_leading_blank name && decide (name.length < 2 ^ 64)

/-- A value that survives a round trip: no `'#'`, `'['` or newline, no leading space
or tab (and a length that a `size_t` holds). -/
def value_ok (value : Str) : Bool :=
  !decide ('#' ∈ value) && !decide ('[' ∈ value) && !decide ('\n' ∈ value) &&
  no_leading_blank value && decide (value.length < 2 ^ 64)

/-- The data model at and below a node that has to sit at depth `d`: the depth
field is `d`, every child sits at `d + 1`, no list flag is set, and names and values
survive a round trip. -/
def well_formed (d : Int) : Node → Bool
  | ⟨name, value, list, depth, children⟩ =>
    decide (depth = d) && decide (list ≠ some true) && name_ok name && value_ok value &&
    wf_all (d + 1) children
where
  /-- The same for every tree of a list. -/
  wf_all (d : Int) : List Node → Bool
    | [] => true
    | node :: rest => well_formed d node && wf_all d rest

/-- The data model for a whole tree: root at depth -1 without list flag, the
children of the root well formed at depth 0. -/
def data_model (root : Node) : Bool :=
  decide (root.depth = -1) && decide (root.list ≠ some true) &&
  well_formed.wf_all 0 root.children

/-- The line of a node without its terminator. -/
def node_text (tabs : Nat) (n : Node) : Str :=
  List.replicate tabs '\t' ++ (n.name ++ (':' :: ' ' :: n.value))

/-- For every node of a tree other than its root, in pre-order, the pre-order
position of its parent; the root of the tree has position `pos`, the next node in
pre-order `pos + 1`, and so on. -/
def parent_positions (pos : Nat) : Node → List Nat
  | ⟨_, _, _, _, children⟩ => parents_all pos (pos + 1) children
where
  /-- The same for the trees of a list, whose first tree starts at position `pos` and
  whose roots all have the node at position `parent` as parent. -/
  parents_all (parent pos : Nat) : List Node → List Nat
    | [] => []
    | node :: rest =>
      parent :: parent_positions pos node
        ++ parents_all parent (pos + (preorder node).length) rest

/-- Position in `ds` of the last entry that is strictly smaller than `d`, `none`
when no entry is. -/
def last_smaller (ds : List Int) (d : Int) : Option Nat :=
  match ds with
  | [] => none
  | x :: rest =>
    match last_smaller rest d with
    | some j => some (j + 1)
    | none => if x < d then some 0 else none

/-- For each entry of `ds`, the position of the last strictly smaller entry among
`before` and the entries of `ds` that precede it. -/
def last_smaller_all (before : List Int) : List Int → List (Option Nat)
  | [] => []
  | d :: rest => last_smaller before d :: last_smaller_all (before ++ [d]) rest

/-- The depths of the nodes of a tree, in pre-order. -/
def depths (n : Node) : List Int := (preorder n).map Node.depth

/-- Shape of the trees that `parse_file` builds from field lines: every child is
deeper than its parent, and among the children of a node no child is deeper than
a child before it. -/
def nested : Node → Bool
  | ⟨_, _, _, depth, children⟩ => nested_all depth children
where
  /-- The same for the children `node :: rest` of a node of depth `parent`. -/
  nested_all (parent : Int) : List Node → Bool
    | [] => true
    | node :: rest =>
      decide (parent < node.depth) && nested node &&
      rest.all (fun r => decide (r.depth ≤ node.depth)) && nested_all parent rest

/-- Invariant of `node_stack` while `parse_file` reads field lines only: the bottom
entry has a negative depth, the depths increase strictly from the bottom to the top,
every entry satisfies `nested`, and the children already attached to an entry are
at least as deep as the open entry above it. -/
def spine : List Node → Prop
  | [] => False
  | [bottom] => bottom.depth < 0 ∧ nested bottom = true
  | top :: next :: below =>
    nested top = true ∧ next.depth < top.depth ∧
    (∀ c ∈ next.children, top.depth ≤ c.depth) ∧ spine (next :: below)

/-- The names, values and depths of the nodes held by a stack, bottom entry first. -/
def stack_keys : List Node → List (Str × Str × Int)
  | [] => []
  | top :: below => stack_keys below ++ keys top

/-- Invariant of `node_stack` in `parse_file`: the stack is not empty, its bottom
entry has a negative depth (it is `root`), the depths increase strictly from the
bottom to the top, and every entry satisfies `depth_incr`. -/
def chain : List Node → Prop
  | [] => False
  | [bottom] => bottom.depth < 0 ∧ depth_incr bottom = true
  | top :: next :: below =>
    depth_incr top = true ∧ next.depth < top.depth ∧ chain (next :: below)




/-! ## Node: the other methods -/

/-- What a `std::unique_ptr<Node>&` returned by `get_child` refers to: the entry of
`children` at a position, or the function-local `static` `dummyNode`. -/
inductive Slot where
  | child (position : Nat)
  | dummy
deriving DecidableEq

/-- The loop `for (auto& child : children) if (child->name == key) return child;` of
`get_child`: the position of the first child named `key`, `none` when the loop ends
without a match. -/
def find_child : List Node → Str → Option Nat
  | [], _ => none
  | child :: rest, key =>
    if child.name = key then some 0 else (find_child rest key).map (· + 1)

/-- Method `get_child(key)`.  The state of the `static std::unique_ptr<Node>
dummyNode` is passed in and out: `none` as long as it is not initialised (it is
initialised with `std::make_unique<Node>()` the first time the loop finds nothing),
then the node it owns. -/
def Node.get_child (n : Node) (dummyNode : Option Node) (key : Str) : Slot × Option Node :=
  match find_child n.children key with
  | some position => (Slot.child position, dummyNode)
  | none =>
    match dummyNode with
    | none => (Slot.dummy, some Node.default)
    | some d => (Slot.dummy, some d)

/-- The node that a slot holds (`*childNode`); `none` stands for a null pointer. -/
def slot_node (n : Node) (dummyNode : Option Node) : Slot → Option Node
  | Slot.child position => n.children[position]?
  | Slot.dummy => dummyNode

/-- The operator `operator[](const std::string& child_name)`: the slot that the
returned reference refers to, the node afterwards and `dummyNode` afterwards.  The
branch `if (!childNode) childNode = std::make_unique<Node>();` assigns to the slot
that `get_child` returned. -/
def Node.subscript (n : Node) (dummyNode : Option Node) (child_name : Str) :
    Slot × Node × Option Node :=
  match n.get_child dummyNode child_name with
  | (childNode, dummy1) =>
    match slot_node n dummy1 childNode with
    | some _ => (childNode, n, dummy1)
    | none =>
      match childNode with
      | Slot.dummy => (childNode, n, some Node.default)
      | Slot.child position =>
        (childNode, { n with children := n.children.set position Node.default }, dummy1)

/-- A call of a method `f` that changes its object, made on the node that a slot
refers to (as in `root["player"].create_node(..)`): the node and `dummyNode`
afterwards. -/
def slot_update (n : Node) (dummyNode : Option Node) (f : Node → Node) :
    Slot → Node × Option Node
  | Slot.child position => ({ n with children := n.children.modify f position }, dummyNode)
  | Slot.dummy => (n, dummyNode.map f)

/-- The exceptions of the standard library that the code meets. -/
inductive Exception where
  | invalid_argument
  | out_of_range
deriving DecidableEq

/-- How a call ends: with a value, with an exception that leaves the function, or
with undefined behaviour (no check, no exception). -/
inductive Outcome (α : Type) where
  | value (a : α)
  | throws (exception : Exception)
  | undefined
deriving DecidableEq

/-- The operator `operator[](int index)`, `return *children[index];`: the index is
converted to the unsigned 64 bit `size_type` of `std::deque`, whose `operator[]`
makes no range check. -/
def Node.subscript_index (n : Node) (index : Int) : Outcome Node :=
  match n.children[(index % 2 ^ 64).toNat]? with
  | some child => Outcome.value child
  | none => Outcome.undefined

/-- The test `isspace` of the "C" locale: space, `\t`, `\n`, `\v`, `\f`, `\r`. -/
def isspace (c : Char) : Bool := c == ' ' || (9 ≤ c.toNat && c.toNat ≤ 13)

/-- The function `std::stoi(str)` of the standard library (base 10, 32 bit `int`), as
the C++ standard defines it through `strtol`: leading white space is skipped, then an
optional sign and the longest run of decimal digits are read and the rest is ignored;
without a digit `std::invalid_argument` is thrown, and `std::out_of_range` when the
number does not fit. -/
def stoi (str : Str) : Outcome Int :=
  let rest := str.dropWhile isspace
  let signed : Bool × Str :=
    match rest with
    | '-' :: r => (true, r)
    | '+' :: r => (false, r)
    | r => (false, r)
  let digits := signed.2.takeWhile Char.isDigit
  if digits = [] then Outcome.throws Exception.invalid_argument
  else
    let magnitude : Nat := digits.foldl (fun acc c => acc * 10 + (c.toNat - 48)) 0
    let result : Int := if signed.1 then -(magnitude : Int) else (magnitude : Int)
    if result < -2 ^ 31 ∨ 2 ^ 31 ≤ result then Outcome.throws Exception.out_of_range
    else Outcome.value result

/-- Method `as_int()`: `try { return std::stoi(value); }` with a handler for
`std::invalid_argument` only, which returns 0 (after a message on `std::cerr`). -/
def Node.as_int (n : Node) : Outcome Int :=
  match stoi n.value with
  | Outcome.value v => Outcome.value v
  | Outcome.throws Exception.invalid_argument => Outcome.value 0
  | Outcome.throws Exception.out_of_range => Outcome.throws Exception.out_of_range
  | Outcome.undefined => Outcome.undefined

/-- The copy constructor `Node(const Node& other)`: `name`, `value` and `depth` are
initialised from `other`, every child is copied with the same constructor; `list` is
not mentioned and stays unset. -/
def Node.copy : Node → Node
  | ⟨name, value, _, depth, children⟩ => ⟨name, value, none, depth, copy_all children⟩
where
  /-- The loop `for (const auto& child : other.children) children.push_back(..)`. -/
  copy_all : List Node → List Node
    | [] => []
    | child :: rest => Node.copy child :: copy_all rest

/-- The copy assignment `self = other` for two different objects (for
`this == &other` nothing happens): `name`, `value` and `depth` are assigned, the
children are replaced by copies; `list` of `self` is not assigned. -/
def Node.assign (self other : Node) : Node :=
  { name := other.name, value := other.value, list := self.list, depth := other.depth,
    children := Node.copy.copy_all other.children }


/-! ## Vocabulary for writing a parsed tree back -/

/-- A name and a value that `parse_file` reads back from the line `write_file` makes
of them: the name has no `':'`, `'['` or newline and no leading space or tab, the
value has no `'['` or newline and no leading space or tab, the value has a `'#'`
only when the name has one, and the line can be held by a string (`size_t`). -/
def text_ok (name value : Str) : Bool :=
  !decide (':' ∈ name) && !decide ('[' ∈ name) && !decide ('\n' ∈ name) &&
  no_leading_blank name &&
  !decide ('[' ∈ value) && !decide ('\n' ∈ value) && no_leading_blank value &&
  (decide ('#' ∈ name) || !decide ('#' ∈ value)) &&
  decide (name.length + value.length + 2 ≤ 2 ^ 64)

/-- Every node of a tree written at nesting level `level` has a name and a value
that are read back, and a node written at level 0 has a name that does not start
with `'#'`. -/
def writable (level : Nat) : Node → Bool
  | ⟨name, value, _, _, children⟩ =>
    text_ok name value && (decide (level ≠ 0) || decide (name.head? ≠ some '#')) &&
    writable_all (level + 1) children
where
  /-- The same for every tree of a list. -/
  writable_all (level : Nat) : List Node → Bool
    | [] => true
    | node :: rest => writable level node && writable_all level rest

/-- The tree with the depth of every node replaced by its nesting level (`level`
for the node itself) and every `list` field unset. -/
def relevel (level : Nat) : Node → Node
  | ⟨name, value, _, _, children⟩ =>
    ⟨name, value, none, level, relevel_all (level + 1) children⟩
where
  /-- The same for a list of trees that all sit at nesting level `level`. -/
  relevel_all (level : Nat) : List Node → List Node
    | [] => []
    | node :: rest => relevel level node :: relevel_all level rest

/-! ## Basic facts -/

theorem preorder_eq (n : Node) : preorder n = n :: preorder.preorder_all n.children := by
  cases n; simp [preorder]

theorem with_levels_eq (level : Nat) (n : Node) :
    with_levels level n = (level, n) :: with_levels.levels_all (level + 1) n.children := by
  cases n; simp [with_levels]

theorem write_nodes_eq (n : Node) (depth : Nat) :
    _write_nodes n depth = node_line depth n ++ _write_nodes.write_all n.children (depth + 1) := by
  cases n; simp [_write_nodes, node_line]

theorem depth_exact_eq (n : Node) : depth_exact n = depth_exact.exact_all n.depth n.children := by
  cases n; simp [depth_exact]

/-! ## Node::append_node -/

theorem write_all_levels (n : Node) :
    ∀ k, _write_nodes n k = ((with_levels k n).map (fun p => node_line p.1 p.2)).flatten := by
  refine Node.rec
    (motive_1 := fun n => ∀ k,
      _write_nodes n k = ((with_levels k n).map (fun p => node_line p.1 p.2)).flatten)
    (motive_2 := fun cs => ∀ k,
      _write_nodes.write_all cs k
        = ((with_levels.levels_all k cs).map (fun p => node_line p.1 p.2)).flatten)
    ?_ ?_ ?_ n
  · intro name value list depth children ih k
    rw [write_nodes_eq, with_levels_eq]
    simp [ih (k + 1)]
  · intro k; simp [_write_nodes.write_all, with_levels.levels_all]
  · intro head tail ih1 ih2 k
    simp [_write_nodes.write_all, with_levels.levels_all, ih1 k, ih2 k]

theorem write_all_levels_list (cs : List Node) (k : Nat) :
    _write_nodes.write_all cs k
      = ((with_levels.levels_all k cs).map (fun p => node_line p.1 p.2)).flatten := by
  induction cs with
  | nil => simp [_write_nodes.write_all, with_levels.levels_all]
  | cons c cs ih => simp [_write_nodes.write_all, with_levels.levels_all, ih, write_all_levels c k]

theorem levels_depth (n : Node) :
    ∀ k : Nat, n.depth = k → depth_exact n = true →
      (with_levels k n).map (fun p => node_line p.1 p.2)
        = (preorder n).map (fun m => node_line m.depth.toNat m) := by
  refine Node.rec
    (motive_1 := fun n => ∀ k : Nat, n.depth = k → depth_exact n = true →
      (with_levels k n).map (fun p => node_line p.1 p.2)
        = (preorder n).map (fun m => node_line m.depth.toNat m))
    (motive_2 := fun cs => ∀ k : Nat, depth_exact.exact_all ((k : Int) - 1) cs = true →
      (with_levels.levels_all k cs).map (fun p => node_line p.1 p.2)
        = (preorder.preorder_all cs).map (fun m => node_line m.depth.toNat m))
    ?_ ?_ ?_ n
  · intro name value list depth children ih k hk hex
    rw [with_levels_eq, preorder_eq]
    simp only [depth_exact] at hex
    simp only at hk
    subst hk
    have := ih (k + 1) (by simpa using hex)
    simp [this]
  · intro k _; simp [with_levels.levels_all, preorder.preorder_all]
  · intro head tail ih1 ih2 k hex
    simp only [depth_exact.exact_all, Bool.and_eq_true, decide_eq_true_eq] at hex
    obtain ⟨⟨hd, h1⟩, h2⟩ := hex
    simp [with_levels.levels_all, preorder.preorder_all, ih1 k (by omega) h1, ih2 k h2]

theorem levels_depth_list (cs : List Node) (k : Nat)
    (hex : depth_exact.exact_all ((k : Int) - 1) cs = true) :
    (with_levels.levels_all k cs).map (fun p => node_line p.1 p.2)
      = (preorder.preorder_all cs).map (fun m => node_line m.depth.toNat m) := by
  induction cs with
  | nil => simp [with_levels.levels_all, preorder.preorder_all]
  | cons c cs ih =>
    simp only [depth_exact.exact_all, Bool.and_eq_true, decide_eq_true_eq] at hex
    obtain ⟨⟨hd, h1⟩, h2⟩ := hex
    simp [with_levels.levels_all, preorder.preorder_all, levels_depth c k (by omega) h1, ih h2]

/-- C9 (amended): `write_file` writes nothing for the root and, for the children of
the root in order, one line per node in pre-order; the line of a node is as many
tab characters as the node has ancestors below the root (its nesting level), the
name, `": "`, the value and a line terminator.  For a tree that satisfies the depth
invariant with the root at depth -1 this number is the depth field of the node. -/
theorem write_file_lines (root : Node) :
    write_file root
      = ((with_levels.levels_all 0 root.children).map (fun p => node_line p.1 p.2)).flatten ∧
    (root.depth = -1 → depth_exact root = true →
      write_file root
        = ((preorder.preorder_all root.children).map
            (fun n => node_line n.depth.toNat n)).flatten) := by
  refine ⟨write_all_levels_list _ _, ?_⟩
  intro hd hex
  rw [depth_exact_eq, hd] at hex
  rw [write_file, write_all_levels_list, levels_depth_list root.children 0 (by simpa using hex)]

/-- C9, on the tree root -> a = "1" (depth 0) -> b = "2" (depth 1). -/
theorem write_file_lines_witness :
    depth_exact ⟨"root".toList, [], none, -1,
      [⟨['a'], ['1'], none, 0, [⟨['b'], ['2'], none, 1, []⟩]⟩]⟩ = true ∧
    write_file ⟨"root".toList, [], none, -1, [⟨['a'], ['1'], none, 0, [⟨['b'], ['2'], none, 1, []⟩]⟩]⟩
      = "a: 1\n\tb: 2\n".toList ∧
    write_file ⟨"root".toList, [], none, -1, [⟨['a'], ['1'], none, 0, [⟨['b'], ['2'], none, 1, []⟩]⟩]⟩
      = ((preorder.preorder_all
            (Node.mk "root".toList [] none (-1)
              [⟨['a'], ['1'], none, 0, [⟨['b'], ['2'], none, 1, []⟩]⟩]).children).map
          (fun n => node_line n.depth.toNat n)).flatten :=
  ⟨rfl, (write_file_lines _).1,
   (write_file_lines
      ⟨"root".toList, [], none, -1, [⟨['a'], ['1'], none, 0, [⟨['b'], ['2'], none, 1, []⟩]⟩]⟩).2
      rfl rfl⟩

/-- C9 (counterexample): in the tree parsed from a file indented with four spaces
the node `health` has depth 4, and `write_file` writes its line with one tab. -/
theorem write_file_tabs_not_depth :
    ∃ t, parse_file "player:\n    health: 100\n".toList = some t ∧
      write_file t = "player: \n\thealth: 100\n".toList ∧
      ((preorder.preorder_all t.children).map (fun n => node_line n.depth.toNat n)).flatten
        = "player: \n\t\t\t\thealth: 100\n".toList :=
  ⟨_, rfl, rfl, rfl⟩

/-! ## The parent stack -/

theorem preorder_all_append (xs ys : List Node) :
    preorder.preorder_all (xs ++ ys) = preorder.preorder_all xs ++ preorder.preorder_all ys := by
  induction xs with
  | nil => simp [preorder.preorder_all]
  | cons x xs ih => simp [preorder.preorder_all, ih]

theorem keys_push_back (n c : Node) : keys (n.push_back c) = keys n ++ keys c := by
  simp [keys, preorder_eq, Node.push_back, preorder_all_append, preorder.preorder_all, Node.key]

theorem keys_set_list (n : Node) (b : Option Bool) : keys { n with list := b } = keys n := by
  simp [keys, preorder_eq, Node.key]

theorem keys_new (name value : Str) (d : Int) :
    keys (Node.new name value d) = [(name, value, d)] := by
  simp [keys, preorder_eq, Node.new, preorder.preorder_all, Node.key]

theorem incr_all_append (p : Int) (xs ys : List Node) :
    depth_incr.incr_all p (xs ++ ys)
      = (depth_incr.incr_all p xs && depth_incr.incr_all p ys) := by
  induction xs with
  | nil => simp [depth_incr.incr_all]
  | cons x xs ih => simp [depth_incr.incr_all, ih, Bool.and_assoc]

theorem depth_incr_eq (n : Node) : depth_incr n = depth_incr.incr_all n.depth n.children := by
  cases n; simp [depth_incr]

theorem depth_incr_push_back (n c : Node) (hn : depth_incr n = true) (hc : depth_incr c = true)
    (hd : n.depth < c.depth) : depth_incr (n.push_back c) = true := by
  rw [depth_incr_eq] at hn ⊢
  simp only [Node.push_back, incr_all_append, hn, depth_incr.incr_all, hc]
  simp
  omega

theorem chain_pop (top next : Node) (below : List Node) (h : chain (top :: next :: below)) :
    chain (next.push_back top :: below) := by
  obtain ⟨ht, hd, hrest⟩ := h
  cases below with
  | nil =>
    obtain ⟨hneg, hn⟩ := hrest
    exact ⟨hneg, depth_incr_push_back next top hn ht hd⟩
  | cons b bs =>
    obtain ⟨hn, hb, hrest⟩ := hrest
    exact ⟨depth_incr_push_back next top hn ht hd, hb, hrest⟩

/-- The unwinding loop on a stack that satisfies the invariant: it stops on a
non-empty stack that satisfies the invariant, whose top is shallower than the
line, and that closes to the same tree. -/
theorem unwind_from_chain (d : Nat) (below : List Node) :
    ∀ top, chain (top :: below) →
      ∃ top1 below1, unwind_from d top below = some (top1 :: below1) ∧
        chain (top1 :: below1) ∧ top1.depth < d ∧
        close_from top1 below1 = close_from top below := by
  induction below with
  | nil =>
    intro top h
    have hneg : top.depth < 0 := h.1
    refine ⟨top, [], ?_, h, by omega, rfl⟩
    simp only [unwind_from]
    rw [if_neg]
    omega
  | cons next below ih =>
    intro top h
    by_cases hc : (d : Int) ≤ top.depth ∧ 0 ≤ top.depth
    · obtain ⟨top1, below1, h1, h2, h3, h4⟩ := ih (next.push_back top) (chain_pop top next below h)
      refine ⟨top1, below1, ?_, h2, h3, ?_⟩
      · simp only [unwind_from]; rw [if_pos hc]; exact h1
      · rw [h4]; rfl
    · refine ⟨top, next :: below, ?_, h, by omega, rfl⟩
      simp only [unwind_from]; rw [if_neg hc]

theorem unwind_chain (d : Nat) (s : List Node) (h : chain s) :
    ∃ top below, unwind d s = some (top :: below) ∧ chain (top :: below) ∧ top.depth < d ∧
      close (top :: below) = close s := by
  cases s with
  | nil => exact absurd h (by simp [chain])
  | cons top below =>
    obtain ⟨top1, below1, h1, h2, h3, h4⟩ := unwind_from_chain d below top h
    exact ⟨top1, below1, h1, h2, h3, by simp [close, h4]⟩

theorem keys_close_from (below : List Node) :
    ∀ top, keys (close_from top below) = stack_keys (top :: below) := by
  induction below with
  | nil => intro top; simp [close_from, stack_keys]
  | cons next below ih =>
    intro top
    simp only [close_from]
    rw [ih, stack_keys, keys_push_back, stack_keys, stack_keys]
    simp

theorem stack_keys_of_close (s1 s2 : List Node) (h1 : s1 ≠ []) (h : close s1 = close s2) :
    stack_keys s1 = stack_keys s2 := by
  cases s1 with
  | nil => exact absurd rfl h1
  | cons t1 b1 =>
    cases s2 with
    | nil => simp [close] at h
    | cons t2 b2 =>
      simp only [close, Option.some.injEq] at h
      rw [← keys_close_from, ← keys_close_from, h]

/-! ## One line of parse_file -/

theorem find_isSome (line : Str) (c : Char) : (find line c).isSome = decide (c ∈ line) := by
  induction line with
  | nil => simp [find]
  | cons x rest ih =>
    by_cases hx : x = c
    · simp [find, hx]
    · have hx2 : ¬ c = x := fun h => hx h.symm
      simp [find, hx, hx2, ih]

theorem find_eq_none (line : Str) (c : Char) : find line c = none ↔ c ∉ line := by
  have h := find_isSome line c
  cases hf : find line c with
  | none => simpa [hf] using h
  | some k => simpa [hf] using h

theorem parse_line_skipped (s : List Node) (line : Str) (h : is_skipped line = true) :
    parse_line s line = some s := by
  simp only [is_skipped, Bool.or_eq_true, decide_eq_true_eq] at h
  unfold parse_line
  rcases h with h | h
  · rw [if_pos h]
  · by_cases h0 : line = []
    · rw [if_pos h0]
    · rw [if_neg h0, if_pos h]

/-- One iteration on a line that is not skipped, from a stack that satisfies the
invariant: the stack is unwound to the indentation of the line; then a line with
`'['` sets the flag of the top, a line with `':'` pushes its node, and any other
line leaves the unwound stack as it is. -/
theorem parse_line_unwound (s : List Node) (line : Str) (hs : chain s)
    (h : is_skipped line = false) :
    ∃ top below, unwind (line_depth line) s = some (top :: below) ∧ chain (top :: below) ∧
      top.depth < line_depth line ∧ close (top :: below) = close s ∧
      parse_line s line = some
        (if (find line '[').isSome then { top with list := some true } :: below
         else match find line ':' with
           | none => top :: below
           | some end_name_colon => field_node line end_name_colon :: top :: below) := by
  obtain ⟨top, below, h1, h2, h3, h4⟩ := unwind_chain (line_depth line) s hs
  refine ⟨top, below, h1, h2, h3, h4, ?_⟩
  simp only [is_skipped, Bool.or_eq_false_iff, decide_eq_false_iff_not] at h
  unfold parse_line
  rw [if_neg h.1, if_neg h.2, h1]
  simp only
  split
  · rfl
  · split <;> rfl

theorem chain_set_list (top : Node) (below : List Node) (b : Option Bool)
    (h : chain (top :: below)) : chain ({ top with list := b } :: below) := by
  have hi : depth_incr { top with list := b } = depth_incr top := by
    rw [depth_incr_eq, depth_incr_eq]
  cases below with
  | nil => exact ⟨h.1, by rw [hi]; exact h.2⟩
  | cons n bs => exact ⟨by rw [hi]; exact h.1, h.2.1, h.2.2⟩

theorem chain_push (top : Node) (below : List Node) (name value : Str) (d : Int)
    (h : chain (top :: below)) (hd : top.depth < d) :
    chain (Node.new name value d :: top :: below) :=
  ⟨by simp [depth_incr_eq, Node.new, depth_incr.incr_all], hd, h⟩

/-- One iteration keeps the invariant and adds to the nodes of the tree exactly the
node of the line when the line is a field line, and nothing otherwise. -/
theorem parse_line_step (s : List Node) (line : Str) (hs : chain s) :
    ∃ s1, parse_line s line = some s1 ∧ chain s1 ∧
      stack_keys s1 = stack_keys s
        ++ (if is_field_line line = true then [(line_node line).key] else []) := by
  cases hsk : is_skipped line with
  | true =>
    refine ⟨s, parse_line_skipped s line hsk, hs, ?_⟩
    simp [is_field_line, hsk]
  | false =>
    obtain ⟨top, below, _, h2, h3, h4, h5⟩ := parse_line_unwound s line hs hsk
    have hk : stack_keys (top :: below) = stack_keys s :=
      stack_keys_of_close _ _ (by simp) h4
    by_cases hb : '[' ∈ line
    · have hb2 : (find line '[').isSome = true := by rw [find_isSome]; simpa using hb
      rw [hb2, if_pos rfl] at h5
      refine ⟨_, h5, chain_set_list top below _ h2, ?_⟩
      rw [← hk]
      simp [is_field_line, hb, stack_keys, keys_set_list]
    · have hb2 : (find line '[').isSome = false := by rw [find_isSome]; simpa using hb
      rw [hb2] at h5
      cases hc : find line ':' with
      | none =>
        rw [hc] at h5
        refine ⟨_, h5, h2, ?_⟩
        have : ':' ∉ line := (find_eq_none line ':').1 hc
        rw [← hk]
        simp [is_field_line, this]
      | some k =>
        rw [hc] at h5
        refine ⟨_, h5, chain_push top below _ _ _ h2 h3, ?_⟩
        have hmem : ':' ∈ line := by
          by_contra hne
          rw [(find_eq_none line ':').2 hne] at hc
          exact absurd hc (by simp)
        rw [← hk]
        simp [is_field_line, hsk, hmem, hb, stack_keys, line_node, hc, field_node, keys_new,
          Node.key]
        simp [Node.new]

theorem parse_lines_step (lines : List Str) :
    ∀ s, chain s →
      ∃ s1, parse_lines s lines = some s1 ∧ chain s1 ∧
        stack_keys s1 = stack_keys s
          ++ (lines.filter (fun l => is_field_line l)).map (fun l => (line_node l).key) := by
  induction lines with
  | nil => intro s hs; exact ⟨s, rfl, hs, by simp⟩
  | cons line rest ih =>
    intro s hs
    obtain ⟨s1, h1, h2, h3⟩ := parse_line_step s line hs
    obtain ⟨s2, h4, h5, h6⟩ := ih s1 h2
    refine ⟨s2, ?_, h5, ?_⟩
    · simp only [parse_lines, h1]; exact h4
    · rw [h6, h3]
      by_cases hf : is_field_line line = true
      · simp [hf]
      · simp [hf]

theorem chain_root : chain [root_node] :=
  ⟨by simp [root_node, Node.new], by simp [root_node, Node.new, depth_incr_eq, depth_incr.incr_all]⟩

theorem chain_close (below : List Node) :
    ∀ top, chain (top :: below) →
      depth_incr (close_from top below) = true ∧ (close_from top below).depth < 0 := by
  induction below with
  | nil => intro top h; exact ⟨h.2, h.1⟩
  | cons next below ih =>
    intro top h
    exact ih _ (chain_pop top next below h)

/-- The loop of `parse_file` on any text ends with a non-empty stack that satisfies
the invariant; the tree returned is that stack closed, and its nodes are `root`
followed by the nodes of the field lines. -/
theorem parse_file_chain (text : Str) :
    ∃ top below, parse_lines [root_node] (getlines text) = some (top :: below) ∧
      chain (top :: below) ∧ parse_file text = some (close_from top below) ∧
      keys (close_from top below)
        = root_node.key :: ((getlines text).filter (fun l => is_field_line l)).map
            (fun l => (line_node l).key) := by
  obtain ⟨s, h1, h2, h3⟩ := parse_lines_step (getlines text) [root_node] chain_root
  cases s with
  | nil => exact absurd h2 (by simp [chain])
  | cons top below =>
    refine ⟨top, below, h1, h2, by simp [parse_file, h1, close], ?_⟩
    rw [keys_close_from, h3]
    simp [stack_keys, keys, preorder_eq, preorder.preorder_all, root_node, Node.new]

/-- C2: `parse_file` returns a tree for every text, and the pre-order traversal of
that tree without the root is, in name, value and depth, the sequence of the nodes
of the field lines of the text (non-empty, not starting with `'#'`, with a `':'`
and without `'['`), one node per field line, in the order of the lines. -/
theorem parse_file_preorder (text : Str) :
    ∃ t, parse_file text = some t ∧
      (preorder t).tail.map Node.key
        = ((getlines text).filter (fun l => is_field_line l)).map
            (fun l => (line_node l).key) := by
  obtain ⟨top, below, _, _, h3, h4⟩ := parse_file_chain text
  refine ⟨_, h3, ?_⟩
  simp only [keys] at h4
  rw [List.map_tail, h4]
  rfl

/-! ## Depths in the parsed tree -/

theorem incr_all_mem (p : Int) (cs : List Node) (h : depth_incr.incr_all p cs = true) :
    ∀ c ∈ cs, p + 1 ≤ c.depth := by
  induction cs with
  | nil => intro c hc; exact absurd hc (by simp)
  | cons x xs ih =>
    simp only [depth_incr.incr_all, Bool.and_eq_true, decide_eq_true_eq] at h
    intro c hc
    rcases List.mem_cons.1 hc with rfl | hc
    · exact h.1.1
    · exact ih h.2 c hc

/-- C4 (counterexample): the file of the spec's example, indented with four spaces,
gives `player` at depth 0 a child at depth 4; and a first line indented with one
space gives the root a child at depth 1. -/
theorem depth_exact_fails :
    parse_file "player:\n    health: 100\n".toList
      = some ⟨"root".toList, [], none, -1,
          [⟨"player".toList, [], none, 0, [⟨"health".toList, "100".toList, none, 4, []⟩]⟩]⟩ ∧
    (parse_file "player:\n    health: 100\n".toList).map depth_exact = some false ∧
    parse_file " a: 1\n".toList
      = some ⟨"root".toList, [], none, -1, [⟨"a".toList, "1".toList, none, 1, []⟩]⟩ :=
  ⟨rfl, rfl, rfl⟩

/-- C4 (amended): for every text `parse_file` returns a tree whose root has depth -1
and in which the depth of every child is at least the depth of its parent plus 1, at
every node; so every top-level entry has a depth of at least 0. -/
theorem parse_file_depth_incr (text : Str) :
    ∃ t, parse_file text = some t ∧ t.depth = -1 ∧ depth_incr t = true ∧
      ∀ c ∈ t.children, 0 ≤ c.depth := by
  obtain ⟨top, below, _, h2, h3, h4⟩ := parse_file_chain text
  have hd : (close_from top below).depth = -1 := by
    have := congrArg List.head? h4
    simp only [keys, preorder_eq, List.map_cons, List.head?_cons, Option.some.injEq] at this
    have := congrArg (fun k => k.2.2) this
    simpa [Node.key, root_node, Node.new] using this
  have hi := (chain_close below top h2).1
  refine ⟨_, h3, hd, hi, ?_⟩
  intro c hc
  rw [depth_incr_eq, hd] at hi
  have := incr_all_mem _ _ hi c hc
  omega

/-! ## Lines that create no node -/

theorem parse_lines_append (xs ys : List Str) :
    ∀ s, parse_lines s (xs ++ ys)
      = match parse_lines s xs with
        | none => none
        | some s1 => parse_lines s1 ys := by
  induction xs with
  | nil => intro s; simp [parse_lines]
  | cons x xs ih =>
    intro s
    simp only [List.cons_append, parse_lines]
    cases parse_line s x with
    | none => rfl
    | some s1 => exact ih s1

theorem unflag_eq (n : Node) :
    unflag n = ⟨n.name, n.value, none, n.depth, unflag.unflag_all n.children⟩ := by
  cases n; simp [unflag]

theorem unflag_all_append (xs ys : List Node) :
    unflag.unflag_all (xs ++ ys) = unflag.unflag_all xs ++ unflag.unflag_all ys := by
  induction xs with
  | nil => simp [unflag.unflag_all]
  | cons x xs ih => simp [unflag.unflag_all, ih]

theorem unflag_push_back (n c : Node) :
    unflag (n.push_back c) = (unflag n).push_back (unflag c) := by
  simp [unflag_eq, Node.push_back, unflag_all_append, unflag.unflag_all]

theorem unflag_close_from (below : List Node) :
    ∀ top1 top2, unflag top1 = unflag top2 →
      unflag (close_from top1 below) = unflag (close_from top2 below) := by
  induction below with
  | nil => intro t1 t2 h; exact h
  | cons next below ih =>
    intro t1 t2 h
    simp only [close_from]
    apply ih
    rw [unflag_push_back, unflag_push_back, h]

/-- C5 (counterexample): a line that starts with `'#'` and contains `'['` is skipped
as a comment; it sets no flag. -/
theorem comment_with_bracket_sets_no_flag :
    parse_file "list:\n#[\n".toList
      = some ⟨"root".toList, [], none, -1, [⟨"list".toList, [], none, 0, []⟩]⟩ ∧
    parse_file "list:\n#[\n".toList = parse_file "list:\n".toList :=
  ⟨rfl, rfl⟩

/-- C5 (amended): in every input, a line that contains `'['` and does not start with
`'#'` creates no node of its own (the tree keeps its nodes and their order, only a
flag changes) and sets the list flag of the node on top of the parent stack after
unwinding to the indentation of the line.  For the example text of the spec the
result is root -> player -> [health = "100", list], where list has its flag set and
has no children. -/
theorem list_marker_sets_flag (before : List Str) (line : Str)
    (hb : '[' ∈ line) (hc : line.head? ≠ some '#') :
    (∃ s top below, parse_lines [root_node] before = some s ∧
      unwind (line_depth line) s = some (top :: below) ∧
      parse_lines [root_node] (before ++ [line])
        = some ({ top with list := some true } :: below) ∧
      (close ({ top with list := some true } :: below)).map unflag = (close s).map unflag) ∧
    parse_file "player:\n    health: 100\n    list:\n        [\n".toList
      = some ⟨"root".toList, [], none, -1,
          [⟨"player".toList, [], none, 0,
            [⟨"health".toList, "100".toList, none, 4, []⟩,
             ⟨"list".toList, [], some true, 4, []⟩]⟩]⟩ := by
  refine ⟨?_, rfl⟩
  obtain ⟨s, h1, h2, _⟩ := parse_lines_step before [root_node] chain_root
  have hsk : is_skipped line = false := by
    have hne : line ≠ [] := by rintro rfl; simp at hb
    simp [is_skipped, hne, hc]
  obtain ⟨top, below, h3, _, _, h6, h7⟩ := parse_line_unwound s line h2 hsk
  have hb2 : (find line '[').isSome = true := by rw [find_isSome]; simpa using hb
  rw [hb2, if_pos rfl] at h7
  refine ⟨s, top, below, h1, h3, ?_, ?_⟩
  · rw [parse_lines_append, h1]
    simp only [parse_lines, h7]
  · rw [← h6]
    simp only [close, Option.map_some']
    rw [unflag_close_from below _ top (by rw [unflag_eq, unflag_eq])]

/-- C5, on the line `"    ["` after the single line `"a:"`. -/
theorem list_marker_sets_flag_witness :
    '[' ∈ "    [".toList ∧ "    [".toList.head? ≠ some '#' ∧
    ∃ s top below, parse_lines [root_node] ["a:".toList] = some s ∧
      unwind (line_depth "    [".toList) s = some (top :: below) ∧
      parse_lines [root_node] (["a:".toList] ++ ["    [".toList])
        = some ({ top with list := some true } :: below) ∧
      (close ({ top with list := some true } :: below)).map unflag = (close s).map unflag :=
  ⟨by decide, by decide,
    (list_marker_sets_flag ["a:".toList] "    [".toList (by decide) (by decide)).1⟩

/-- C6 (counterexample): a line of one space between ` b:` and `  c:` makes `c` a
child of `a` instead of `b`; an indented comment with a colon becomes a node. -/
theorem blank_line_changes_tree :
    getlines "a:\n b:\n \n  c:\n".toList = ["a:".toList, " b:".toList, " ".toList, "  c:".toList] ∧
    parse_file "a:\n b:\n \n  c:\n".toList
      = some ⟨"root".toList, [], none, -1,
          [⟨"a".toList, [], none, 0,
            [⟨"b".toList, [], none, 1, []⟩, ⟨"c".toList, [], none, 2, []⟩]⟩]⟩ ∧
    parse_file "a:\n b:\n  c:\n".toList
      = some ⟨"root".toList, [], none, -1,
          [⟨"a".toList, [], none, 0,
            [⟨"b".toList, [], none, 1, [⟨"c".toList, [], none, 2, []⟩]⟩]⟩]⟩ ∧
    parse_file " # note: x\n".toList
      = some ⟨"root".toList, [], none, -1, [⟨"# note".toList, "x".toList, none, 1, []⟩]⟩ :=
  ⟨rfl, rfl, rfl, rfl⟩

/-- C6 (amended): a line that is empty or whose first character (column 0) is `'#'`
produces no node, and the parsed tree is the same as for the input with that line
removed. -/
theorem skipped_line_removed (text1 text2 : Str) (before after : List Str) (line : Str)
    (h1 : getlines text1 = before ++ line :: after) (h2 : getlines text2 = before ++ after)
    (hs : line = [] ∨ line.head? = some '#') :
    parse_file text1 = parse_file text2 ∧ is_field_line line = false := by
  have hsk : is_skipped line = true := by
    rcases hs with h | h <;> simp [is_skipped, h]
  refine ⟨?_, by simp [is_field_line, hsk]⟩
  simp only [parse_file, h1, h2]
  rw [parse_lines_append, parse_lines_append]
  cases parse_lines [root_node] before with
  | none => rfl
  | some s => simp only [parse_lines, parse_line_skipped s line hsk]

/-- C6, on a comment line between two field lines. -/
theorem skipped_line_removed_witness :
    getlines "a: 1\n# c\n b: 2\n".toList = ["a: 1".toList] ++ "# c".toList :: [" b: 2".toList] ∧
    getlines "a: 1\n b: 2\n".toList = ["a: 1".toList] ++ [" b: 2".toList] ∧
    "# c".toList.head? = some '#' ∧
    parse_file "a: 1\n# c\n b: 2\n".toList = parse_file "a: 1\n b: 2\n".toList ∧
    is_field_line "# c".toList = false :=
  ⟨rfl, rfl, rfl, skipped_line_removed "a: 1\n# c\n b: 2\n".toList "a: 1\n b: 2\n".toList
    ["a: 1".toList] [" b: 2".toList] "# c".toList rfl rfl (Or.inr rfl)⟩

/-- C7 (failing input): the line `oops` has neither `':'` nor `'['`, yet with it
`mana` becomes a child of the root, and without it a child of `player`. -/
theorem malformed_line_changes_tree :
    parse_file "player:\n    health: 100\noops\n    mana: 5\n".toList
      = some ⟨"root".toList, [], none, -1,
          [⟨"player".toList, [], none, 0, [⟨"health".toList, "100".toList, none, 4, []⟩]⟩,
           ⟨"mana".toList, "5".toList, none, 4, []⟩]⟩ ∧
    parse_file "player:\n    health: 100\n    mana: 5\n".toList
      = some ⟨"root".toList, [], none, -1,
          [⟨"player".toList, [], none, 0,
            [⟨"health".toList, "100".toList, none, 4, []⟩,
             ⟨"mana".toList, "5".toList, none, 4, []⟩]⟩]⟩ :=
  ⟨rfl, rfl⟩

/-- C8 (failing input): on the line `a#b: c # d` the first `'#'` lies before the
colon; the value is not cut at the `'#'` after the colon. -/
theorem value_not_cut_after_hash_in_name :
    parse_file "a#b: c # d\n".toList
      = some ⟨"root".toList, [], none, -1, [⟨"a#b".toList, "c # d".toList, none, 0, []⟩]⟩ ∧
    parse_file "ab: c # d\n".toList
      = some ⟨"root".toList, [], none, -1, [⟨"ab".toList, "c ".toList, none, 0, []⟩]⟩ :=
  ⟨rfl, rfl⟩

/-! ## Round trip: the lines of a written file -/

theorem getlines_line (l rest : Str) (h : '\n' ∉ l) :
    getlines (l ++ '\n' :: rest) = l :: getlines rest := by
  induction l with
  | nil => simp [getlines]
  | cons c cs ih =>
    have hc : c ≠ '\n' := fun e => h (by simp [e])
    have hcs : '\n' ∉ cs := fun e => h (by simp [e])
    have e : getlines (c :: (cs ++ '\n' :: rest))
        = match getlines (cs ++ '\n' :: rest) with
          | [] => [[c]]
          | l :: ls => (c :: l) :: ls := by
      simp [getlines, hc]
    rw [List.cons_append, e, ih hcs]

theorem getlines_lines (ls : List Str) (h : ∀ l ∈ ls, '\n' ∉ l) :
    getlines ((ls.map (fun l => l ++ ['\n'])).flatten) = ls := by
  induction ls with
  | nil => simp [getlines]
  | cons l ls ih =>
    simp only [List.map_cons, List.flatten_cons, List.append_assoc, List.singleton_append]
    rw [getlines_line l _ (h l (by simp)), ih (fun x hx => h x (by simp [hx]))]

theorem count_blanks_tabs (k : Nat) (rest : Str) :
    count_blanks (List.replicate k '\t' ++ rest) = k + count_blanks rest := by
  induction k with
  | zero => simp
  | succ k ih =>
    simp only [List.replicate_succ, List.cons_append, count_blanks, ih]
    simp [is_blank]
    omega

theorem count_blanks_name (name rest : Str) (h : no_leading_blank name = true) :
    count_blanks (name ++ ':' :: rest) = 0 := by
  cases name with
  | nil => simp [count_blanks, is_blank]
  | cons c cs =>
    simp only [no_leading_blank, Bool.not_eq_true'] at h
    simp [count_blanks, h]

theorem count_blanks_value (value : Str) (h : no_leading_blank value = true) :
    count_blanks value = 0 := by
  cases value with
  | nil => rfl
  | cons c cs =>
    simp only [no_leading_blank, Bool.not_eq_true'] at h
    simp [count_blanks, h]

theorem find_append (xs ys : Str) (c : Char) (h : c ∉ xs) :
    find (xs ++ ys) c = (find ys c).map (· + xs.length) := by
  induction xs with
  | nil => simp
  | cons x xs ih =>
    have hx : x ≠ c := fun e => h (by simp [e])
    have hxs : c ∉ xs := fun e => h (by simp [e])
    have e : find (x :: (xs ++ ys)) c = (find (xs ++ ys) c).map (· + 1) := by
      simp [find, hx]
    rw [List.cons_append, e, ih hxs]
    cases find ys c with
    | none => rfl
    | some j => simp only [Option.map_some', List.length_cons, Option.some.injEq]; omega

theorem size_sub_add (a b : Nat) (h : a < 2 ^ 64) : size_sub (b + a) b = a := by
  simp only [size_sub]
  omega

/-- What `parse_file` reads on the line written for a node with a well-formed name
and value at nesting level `k`. -/
theorem node_text_facts (k : Nat) (n : Node) (hn : name_ok n.name = true)
    (hv : value_ok n.value = true) :
    is_skipped (node_text k n) = false ∧ line_depth (node_text k n) = k ∧
    find (node_text k n) '[' = none ∧
    find (node_text k n) ':' = some (k + n.name.length) ∧
    field_node (node_text k n) (k + n.name.length) = Node.new n.name n.value k ∧
    '\n' ∉ node_text k n := by
  simp only [name_ok, value_ok, Bool.and_eq_true, Bool.not_eq_true', decide_eq_false_iff_not,
    decide_eq_true_eq] at hn hv
  obtain ⟨⟨⟨⟨⟨n1, n2⟩, n3⟩, n4⟩, n5⟩, n6⟩ := hn
  obtain ⟨⟨⟨⟨v1, v2⟩, v3⟩, v4⟩, v5⟩ := hv
  have hdepth : line_depth (node_text k n) = k := by
    simp [line_depth, skip_blanks, node_text, count_blanks_tabs, count_blanks_name _ _ n5]
  have htab : ∀ c : Char, c ≠ '\t' → c ∉ List.replicate k '\t' := by
    intro c hc hm
    exact hc (List.eq_of_mem_replicate hm)
  have hcolon : find (node_text k n) ':' = some (k + n.name.length) := by
    simp only [node_text]
    rw [find_append _ _ _ (htab ':' (by decide)), find_append _ _ _ n1]
    simp [find]
    omega
  have hhash : find (node_text k n) '#' = none := by
    rw [find_eq_none]
    simp only [node_text, List.mem_append, List.mem_cons, not_or]
    exact ⟨htab '#' (by decide), n2, by decide, by decide, v1⟩
  refine ⟨?_, hdepth, ?_, hcolon, ?_, ?_⟩
  · simp only [is_skipped, Bool.or_eq_false_iff, decide_eq_false_iff_not]
    constructor
    · simp [node_text]
    · cases k with
      | succ k => simp [node_text, List.replicate_succ]
      | zero =>
        cases hname : n.name with
        | nil => simp [node_text, hname]
        | cons c cs =>
          have : c ≠ '#' := fun e => n2 (by simp [hname, e])
          simp [node_text, hname, this]
  · rw [find_eq_none]
    simp only [node_text, List.mem_append, List.mem_cons, not_or]
    exact ⟨htab '[' (by decide), n3, by decide, by decide, v2⟩
  · have hname : field_name (node_text k n) (k + n.name.length) = n.name := by
      simp only [field_name, hdepth, substr, size_sub_add _ _ n6]
      simp [node_text]
    have hvalue : field_value (node_text k n) (k + n.name.length) = n.value := by
      have hdrop : ∀ i, (node_text k n).drop (k + n.name.length + i)
          = (':' :: ' ' :: n.value).drop i := by
        intro i
        have e : k + n.name.length + i
            = (List.replicate k '\t').length + (n.name.length + i) := by
          simp; omega
        rw [e, node_text, List.drop_append, List.drop_append]
      have hb : skip_blanks (node_text k n) (k + n.name.length + 1) = k + n.name.length + 2 := by
        simp [skip_blanks, hdrop 1, count_blanks, is_blank, count_blanks_value _ v4]
      have hl : (node_text k n).length = (k + n.name.length + 2) + n.value.length := by
        simp [node_text]; omega
      simp only [field_value, hb, hhash, hl, substr, size_sub_add _ _ v5, hdrop 2]
      simp
    simp [field_node, hname, hvalue, hdepth]
  · simp only [node_text, List.mem_append, List.mem_cons, not_or]
    exact ⟨htab '\n' (by decide), n4, by decide, by decide, v3⟩

/-! ## Round trip: parsing the written lines -/

theorem unwind_from_stop (d : Int) (top : Node) (below : List Node)
    (h : ¬ (d ≤ top.depth ∧ 0 ≤ top.depth)) :
    unwind_from d top below = some (top :: below) := by
  cases below with
  | nil => simp only [unwind_from, if_neg h]
  | cons next below => simp only [unwind_from, if_neg h]

theorem unwind_from_pop (d : Int) (top next : Node) (below : List Node)
    (h : d ≤ top.depth ∧ 0 ≤ top.depth) :
    unwind_from d top (next :: below) = unwind_from d (next.push_back top) below := by
  simp only [unwind_from, if_pos h]

/-- Unwinding to an indentation, then to a smaller one, is unwinding to the smaller one. -/
theorem unwind_from_mono (d d1 : Int) (h : d ≤ d1) (below : List Node) :
    ∀ top s1, unwind_from d1 top below = some s1 → unwind_from d top below = unwind d s1 := by
  induction below with
  | nil =>
    intro top s1 hs
    by_cases hc : d1 ≤ top.depth ∧ 0 ≤ top.depth
    · simp [unwind_from, hc] at hs
    · rw [unwind_from_stop d1 top [] hc] at hs
      cases hs
      rfl
  | cons next below ih =>
    intro top s1 hs
    by_cases hc : d1 ≤ top.depth ∧ 0 ≤ top.depth
    · rw [unwind_from_pop d1 top next below hc] at hs
      rw [unwind_from_pop d top next below ⟨by omega, hc.2⟩]
      exact ih _ _ hs
    · rw [unwind_from_stop d1 top _ hc] at hs
      cases hs
      rfl

theorem unwind_mono (d d1 : Int) (h : d ≤ d1) (s s1 : List Node) (hs : unwind d1 s = some s1) :
    unwind d s = unwind d s1 := by
  cases s with
  | nil => simp [unwind] at hs
  | cons top below => exact unwind_from_mono d d1 h below top s1 hs

theorem close_unwind_from (d : Int) (below : List Node) :
    ∀ top s1, unwind_from d top below = some s1 → close s1 = some (close_from top below) := by
  induction below with
  | nil =>
    intro top s1 hs
    by_cases hc : d ≤ top.depth ∧ 0 ≤ top.depth
    · simp [unwind_from, hc] at hs
    · rw [unwind_from_stop d top [] hc] at hs
      cases hs
      rfl
  | cons next below ih =>
    intro top s1 hs
    by_cases hc : d ≤ top.depth ∧ 0 ≤ top.depth
    · rw [unwind_from_pop d top next below hc] at hs
      exact ih _ _ hs
    · rw [unwind_from_stop d top _ hc] at hs
      cases hs
      rfl

theorem close_unwind (d : Int) (s s1 : List Node) (hs : unwind d s = some s1) :
    close s1 = close s := by
  cases s with
  | nil => simp [unwind] at hs
  | cons top below => exact close_unwind_from d below top s1 hs

theorem parse_line_eq (s : List Node) (line : Str) (h : is_skipped line = false) :
    parse_line s line
      = match unwind (line_depth line) s with
        | none => none
        | some [] => none
        | some (top :: below) =>
          if (find line '[').isSome then some ({ top with list := some true } :: below)
          else
            match find line ':' with
            | none => some (top :: below)
            | some end_name_colon => some (field_node line end_name_colon :: top :: below) := by
  simp only [is_skipped, Bool.or_eq_false_iff, decide_eq_false_iff_not] at h
  unfold parse_line
  rw [if_neg h.1, if_neg h.2]

/-- Parsing the line written for a node: the node is pushed on the unwound stack. -/
theorem parse_line_written (k : Nat) (n : Node) (hn : name_ok n.name = true)
    (hv : value_ok n.value = true) (s below : List Node) (top : Node)
    (hs : unwind k s = some (top :: below)) :
    parse_line s (node_text k n) = some (Node.new n.name n.value k :: top :: below) := by
  obtain ⟨f1, f2, f3, f4, f5, _⟩ := node_text_facts k n hn hv
  rw [parse_line_eq s _ f1, f2, hs]
  simp only [f3, f4, f5]
  rfl

/-- Parsing the lines written for a subtree at nesting level `k`, and for a list of
subtrees, from a stack that unwinds at `k` to `top :: below`: afterwards the stack
unwinds at `k` to the same entries with the subtrees added to the children of `top`. -/
theorem parse_written (n : Node) :
    ∀ (k : Nat) (top : Node) (below s : List Node), well_formed k n = true →
      unwind k s = some (top :: below) → top.depth < k →
      ∃ s1, parse_lines s ((with_levels k n).map (fun p => node_text p.1 p.2)) = some s1 ∧
        unwind k s1 = some (top.push_back (unflag n) :: below) := by
  refine Node.rec
    (motive_1 := fun n => ∀ (k : Nat) (top : Node) (below s : List Node),
      well_formed k n = true → unwind k s = some (top :: below) → top.depth < k →
      ∃ s1, parse_lines s ((with_levels k n).map (fun p => node_text p.1 p.2)) = some s1 ∧
        unwind k s1 = some (top.push_back (unflag n) :: below))
    (motive_2 := fun cs => ∀ (k : Nat) (top : Node) (below s : List Node),
      well_formed.wf_all k cs = true → unwind k s = some (top :: below) → top.depth < k →
      ∃ s1, parse_lines s ((with_levels.levels_all k cs).map (fun p => node_text p.1 p.2))
          = some s1 ∧
        unwind k s1
          = some ({ top with children := top.children ++ unflag.unflag_all cs } :: below))
    ?_ ?_ ?_ n
  · intro name value list depth children ih k top below s hwf hs htop
    simp only [well_formed, Bool.and_eq_true, decide_eq_true_eq] at hwf
    obtain ⟨⟨⟨⟨hd, _⟩, hn⟩, hv⟩, hcs⟩ := hwf
    subst hd
    have hline := parse_line_written k ⟨name, value, list, k, children⟩ hn hv s below top hs
    have hstop : unwind ((k + 1 : Nat) : Int) (Node.new name value k :: top :: below)
        = some (Node.new name value k :: top :: below) :=
      unwind_from_stop _ _ _ (by simp [Node.new])
    obtain ⟨s1, h1, h2⟩ := ih (k + 1) (Node.new name value k) (top :: below) _
      (by simpa using hcs) hstop (by simp [Node.new])
    refine ⟨s1, ?_, ?_⟩
    · rw [with_levels_eq]
      simp only [List.map_cons, parse_lines, hline]
      exact h1
    · rw [unwind_mono k ((k + 1 : Nat) : Int) (by simp) s1 _ h2]
      simp only [unwind]
      rw [unwind_from_pop _ _ _ _ (by simp [Node.new]),
        unwind_from_stop _ _ _ (by simp [Node.push_back]; omega)]
      simp [unflag, Node.new]
  · intro k top below s _ hs _
    refine ⟨s, rfl, ?_⟩
    rw [hs]
    simp only [unflag.unflag_all, List.append_nil]
    cases top
    rfl
  · intro head tail ih1 ih2 k top below s hwf hs htop
    simp only [well_formed.wf_all, Bool.and_eq_true] at hwf
    obtain ⟨s1, h1, h2⟩ := ih1 k top below s hwf.1 hs htop
    obtain ⟨s2, h3, h4⟩ := ih2 k (top.push_back (unflag head)) below s1 hwf.2 h2
      (by simpa [Node.push_back] using htop)
    refine ⟨s2, ?_, ?_⟩
    · simp only [with_levels.levels_all, List.map_append]
      rw [parse_lines_append, h1]
      exact h3
    · rw [h4]
      simp [Node.push_back, unflag.unflag_all]

theorem parse_written_all (cs : List Node) :
    ∀ (k : Nat) (top : Node) (below s : List Node), well_formed.wf_all k cs = true →
      unwind k s = some (top :: below) → top.depth < k →
      ∃ s1, parse_lines s ((with_levels.levels_all k cs).map (fun p => node_text p.1 p.2))
          = some s1 ∧
        unwind k s1
          = some ({ top with children := top.children ++ unflag.unflag_all cs } :: below) := by
  induction cs with
  | nil =>
    intro k top below s _ hs _
    refine ⟨s, rfl, ?_⟩
    rw [hs]
    simp only [unflag.unflag_all, List.append_nil]
    cases top
    rfl
  | cons head tail ih =>
    intro k top below s hwf hs htop
    simp only [well_formed.wf_all, Bool.and_eq_true] at hwf
    obtain ⟨s1, h1, h2⟩ := parse_written head k top below s hwf.1 hs htop
    obtain ⟨s2, h3, h4⟩ := ih k (top.push_back (unflag head)) below s1 hwf.2 h2
      (by simpa [Node.push_back] using htop)
    refine ⟨s2, ?_, ?_⟩
    · simp only [with_levels.levels_all, List.map_append]
      rw [parse_lines_append, h1]
      exact h3
    · rw [h4]
      simp [Node.push_back, unflag.unflag_all]

/-- The lines written for well-formed subtrees contain no newline. -/
theorem written_lines_ok (n : Node) :
    ∀ (d : Int) (k : Nat), well_formed d n = true →
      ∀ p ∈ with_levels k n, '\n' ∉ node_text p.1 p.2 := by
  refine Node.rec
    (motive_1 := fun n => ∀ (d : Int) (k : Nat), well_formed d n = true →
      ∀ p ∈ with_levels k n, '\n' ∉ node_text p.1 p.2)
    (motive_2 := fun cs => ∀ (d : Int) (k : Nat), well_formed.wf_all d cs = true →
      ∀ p ∈ with_levels.levels_all k cs, '\n' ∉ node_text p.1 p.2)
    ?_ ?_ ?_ n
  · intro name value list depth children ih d k hwf p hp
    simp only [well_formed, Bool.and_eq_true, decide_eq_true_eq] at hwf
    obtain ⟨⟨⟨_, hn⟩, hv⟩, hcs⟩ := hwf
    rw [with_levels_eq] at hp
    rcases List.mem_cons.1 hp with rfl | hp
    · exact (node_text_facts k ⟨name, value, list, depth, children⟩ hn hv).2.2.2.2.2
    · exact ih _ _ hcs p hp
  · intro d k _ p hp
    simp [with_levels.levels_all] at hp
  · intro head tail ih1 ih2 d k hwf p hp
    simp only [well_formed.wf_all, Bool.and_eq_true] at hwf
    simp only [with_levels.levels_all, List.mem_append] at hp
    rcases hp with hp | hp
    · exact ih1 d k hwf.1 p hp
    · exact ih2 d k hwf.2 p hp

theorem written_lines_ok_all (cs : List Node) (d : Int) (k : Nat)
    (hwf : well_formed.wf_all d cs = true) :
    ∀ p ∈ with_levels.levels_all k cs, '\n' ∉ node_text p.1 p.2 := by
  induction cs with
  | nil => intro p hp; simp [with_levels.levels_all] at hp
  | cons head tail ih =>
    simp only [well_formed.wf_all, Bool.and_eq_true] at hwf
    intro p hp
    simp only [with_levels.levels_all, List.mem_append] at hp
    rcases hp with hp | hp
    · exact written_lines_ok head d k hwf.1 p hp
    · exact ih hwf.2 p hp

theorem getlines_write_file (t : Node) (h : well_formed.wf_all 0 t.children = true) :
    getlines (write_file t)
      = (with_levels.levels_all 0 t.children).map (fun p => node_text p.1 p.2) := by
  have e : write_file t
      = (((with_levels.levels_all 0 t.children).map (fun p => node_text p.1 p.2)).map
          (fun l => l ++ ['\n'])).flatten := by
    rw [write_file, write_all_levels_list, List.map_map]
    congr 1
    apply List.map_congr_left
    intro p _
    simp [node_line, node_text]
  rw [e]
  apply getlines_lines
  intro l hl
  obtain ⟨p, hp, rfl⟩ := List.mem_map.1 hl
  exact written_lines_ok_all _ 0 0 h p hp

theorem unflag_idem (n : Node) : unflag (unflag n) = unflag n := by
  refine Node.rec
    (motive_1 := fun n => unflag (unflag n) = unflag n)
    (motive_2 := fun cs => unflag.unflag_all (unflag.unflag_all cs) = unflag.unflag_all cs)
    ?_ ?_ ?_ n
  · intro name value list depth children ih
    simp [unflag, ih]
  · rfl
  · intro head tail ih1 ih2
    simp [unflag.unflag_all, ih1, ih2]

theorem unflag_all_idem (cs : List Node) :
    unflag.unflag_all (unflag.unflag_all cs) = unflag.unflag_all cs := by
  induction cs with
  | nil => rfl
  | cons c cs ih => simp [unflag.unflag_all, unflag_idem, ih]

/-- C1 (counterexample): a root made by the default constructor (empty name, depth
-1) with one child satisfies the data model; the tree parsed from its written file
has a root named "root". -/
theorem round_trip_renames_root :
    data_model (Node.default.create_node ['a'] ['1']) = true ∧
    (Node.default.create_node ['a'] ['1']).name = [] ∧
    (parse_file (write_file (Node.default.create_node ['a'] ['1']))).map Node.name
      = some "root".toList :=
  ⟨rfl, rfl, rfl⟩

/-- C1 (amended): for every tree that satisfies the data model (root depth -1, every
child depth = parent depth + 1, no list flags) with names and values free of the
characters that the format reserves, parsing the text produced by `write_file`
yields the tree with root "root" (empty value, depth -1) whose nodes below the root
equal the original ones in name, value, depth and child order; when the original
root is itself named "root" with an empty value, the two trees are equal in name,
value, depth and child order at every node. -/
theorem round_trip (t : Node) (h : data_model t = true) :
    parse_file (write_file t)
      = some ⟨"root".toList, [], none, -1, unflag.unflag_all t.children⟩ ∧
    (t.name = "root".toList → t.value = [] →
      (parse_file (write_file t)).map unflag = some (unflag t)) := by
  simp only [data_model, Bool.and_eq_true, decide_eq_true_eq] at h
  obtain ⟨⟨hd, _⟩, hwf⟩ := h
  have hparse : parse_file (write_file t)
      = some ⟨"root".toList, [], none, -1, unflag.unflag_all t.children⟩ := by
    obtain ⟨s1, h1, h2⟩ := parse_written_all t.children 0 root_node [] [root_node]
      (by simpa using hwf) rfl (by decide)
    simp only [parse_file, getlines_write_file t hwf, h1]
    rw [← close_unwind _ _ _ h2]
    rfl
  refine ⟨hparse, ?_⟩
  intro hn hv
  rw [hparse, unflag_eq t, hn, hv, hd]
  simp [unflag, unflag_all_idem]

/-- C1, on the tree root -> a = "1" (depth 0) -> b = "x y" (depth 1). -/
theorem round_trip_witness :
    data_model ⟨"root".toList, [], none, -1,
      [⟨['a'], ['1'], none, 0, [⟨['b'], "x y".toList, none, 1, []⟩]⟩]⟩ = true ∧
    (parse_file (write_file ⟨"root".toList, [], none, -1,
        [⟨['a'], ['1'], none, 0, [⟨['b'], "x y".toList, none, 1, []⟩]⟩]⟩)).map unflag
      = some (unflag ⟨"root".toList, [], none, -1,
          [⟨['a'], ['1'], none, 0, [⟨['b'], "x y".toList, none, 1, []⟩]⟩]⟩) :=
  ⟨by decide, (round_trip ⟨"root".toList, [], none, -1,
      [⟨['a'], ['1'], none, 0, [⟨['b'], "x y".toList, none, 1, []⟩]⟩]⟩ (by decide)).2 rfl rfl⟩

/-! ## Parent reattachment -/

theorem nested_eq (n : Node) : nested n = nested.nested_all n.depth n.children := by
  cases n; simp [nested]

theorem depths_eq (n : Node) :
    depths n = n.depth :: (preorder.preorder_all n.children).map Node.depth := by
  simp [depths, preorder_eq]

theorem parent_positions_eq (pos : Nat) (n : Node) :
    parent_positions pos n = parent_positions.parents_all pos (pos + 1) n.children := by
  cases n; simp [parent_positions]

/-- In a nested tree no node is shallower than the root of the tree. -/
theorem nested_min (n : Node) : nested n = true → ∀ m ∈ preorder n, n.depth ≤ m.depth := by
  refine Node.rec
    (motive_1 := fun n => nested n = true → ∀ m ∈ preorder n, n.depth ≤ m.depth)
    (motive_2 := fun cs => ∀ p : Int, nested.nested_all p cs = true →
      ∀ m ∈ preorder.preorder_all cs, p ≤ m.depth)
    ?_ ?_ ?_ n
  · intro name value list depth children ih h m hm
    rw [preorder_eq] at hm
    rcases List.mem_cons.1 hm with rfl | hm
    · exact le_refl _
    · exact ih depth (by simpa [nested] using h) m hm
  · intro p _ m hm
    simp [preorder.preorder_all] at hm
  · intro head tail ih1 ih2 p h m hm
    simp only [nested.nested_all, Bool.and_eq_true, decide_eq_true_eq] at h
    obtain ⟨⟨⟨hp, hh⟩, _⟩, ht⟩ := h
    simp only [preorder.preorder_all, List.mem_append] at hm
    rcases hm with hm | hm
    · have := ih1 hh m hm
      omega
    · exact ih2 p ht m hm

theorem last_smaller_cons (x : Int) (xs : List Int) (d : Int) :
    last_smaller (x :: xs) d
      = match last_smaller xs d with
        | some j => some (j + 1)
        | none => if x < d then some 0 else none := rfl

theorem last_smaller_append_ge (xs ys : List Int) (d : Int) (h : ∀ y ∈ ys, d ≤ y) :
    last_smaller (xs ++ ys) d = last_smaller xs d := by
  induction xs with
  | nil =>
    induction ys with
    | nil => rfl
    | cons y ys ih =>
      have hy : ¬ y < d := by have := h y (by simp); omega
      simp only [List.nil_append] at ih ⊢
      rw [last_smaller_cons, ih (fun z hz => h z (by simp [hz]))]
      simp [last_smaller, hy]
  | cons x xs ih => rw [List.cons_append, last_smaller_cons, last_smaller_cons, ih]

theorem last_smaller_append_lt (xs : List Int) (p d : Int) (h : p < d) :
    last_smaller (xs ++ [p]) d = some xs.length := by
  induction xs with
  | nil => simp [last_smaller, h]
  | cons x xs ih => rw [List.cons_append, last_smaller_cons, ih]; rfl

theorem last_smaller_all_append (xs ys : List Int) :
    ∀ before, last_smaller_all before (xs ++ ys)
      = last_smaller_all before xs ++ last_smaller_all (before ++ xs) ys := by
  induction xs with
  | nil => intro before; simp [last_smaller_all]
  | cons x xs ih =>
    intro before
    simp [last_smaller_all, ih]

/-- In a nested tree the parent of every node is the last node before it (in
pre-order) that is strictly shallower. -/
theorem parents_spec (n : Node) :
    nested n = true → ∀ before : List Int,
      last_smaller_all (before ++ [n.depth]) (depths n).tail
        = (parent_positions before.length n).map some := by
  refine Node.rec
    (motive_1 := fun n => nested n = true → ∀ before : List Int,
      last_smaller_all (before ++ [n.depth]) (depths n).tail
        = (parent_positions before.length n).map some)
    (motive_2 := fun cs => ∀ (p : Int) (before mid : List Int),
      nested.nested_all p cs = true → (∀ x ∈ mid, ∀ c ∈ cs, c.depth ≤ x) →
      last_smaller_all (before ++ [p] ++ mid) ((preorder.preorder_all cs).map Node.depth)
        = (parent_positions.parents_all before.length (before.length + 1 + mid.length) cs).map
            some)
    ?_ ?_ ?_ n
  · intro name value list depth children ih h before
    have := ih depth before [] (by simpa [nested] using h) (by simp)
    simpa [depths_eq, parent_positions_eq] using this
  · intro p before mid _ _
    simp [preorder.preorder_all, last_smaller_all, parent_positions.parents_all]
  · intro c rest ih1 ih2 p before mid h hmid
    simp only [nested.nested_all, Bool.and_eq_true, decide_eq_true_eq, List.all_eq_true] at h
    obtain ⟨⟨⟨hp, hc⟩, hsib⟩, hrest⟩ := h
    have hfirst : last_smaller (before ++ [p] ++ mid) c.depth = some before.length := by
      rw [last_smaller_append_ge _ _ _ (fun x hx => hmid x hx c (by simp)),
        last_smaller_append_lt _ _ _ hp]
    have h1 := ih1 hc (before ++ [p] ++ mid)
    have h2 := ih2 p before (mid ++ depths c) hrest (by
      intro x hx r hr
      have hrc : r.depth ≤ c.depth := hsib r hr
      rcases List.mem_append.1 hx with hx | hx
      · exact hmid x hx r (by simp [hr])
      · obtain ⟨m, hm, rfl⟩ := List.mem_map.1 hx
        have := nested_min c hc m hm
        omega)
    have hlen : (depths c).length = (preorder c).length := by simp [depths]
    have hsplit : depths c = c.depth :: (depths c).tail := by rw [depths_eq]; rfl
    have e : (preorder.preorder_all (c :: rest)).map Node.depth
        = c.depth :: ((depths c).tail ++ (preorder.preorder_all rest).map Node.depth) := by
      simp [preorder.preorder_all, depths_eq, preorder_eq]
    rw [e, last_smaller_all, last_smaller_all_append, hfirst, h1]
    have e2 : before ++ [p] ++ mid ++ [c.depth] ++ (depths c).tail
        = before ++ [p] ++ (mid ++ depths c) := by
      conv => rhs; rw [hsplit]
      simp
    have l1 : (before ++ [p] ++ mid).length = before.length + 1 + mid.length := by
      simp only [List.length_append, List.length_singleton]
    have l2 : before.length + 1 + (mid ++ depths c).length
        = before.length + 1 + mid.length + (preorder c).length := by
      simp only [List.length_append, hlen]; omega
    rw [e2, h2, l1, l2]
    simp [parent_positions.parents_all]

theorem nested_all_snoc (p : Int) (xs : List Node) (c : Node)
    (hxs : nested.nested_all p xs = true) (hp : p < c.depth) (hc : nested c = true)
    (hall : ∀ x ∈ xs, c.depth ≤ x.depth) : nested.nested_all p (xs ++ [c]) = true := by
  induction xs with
  | nil => simp [nested.nested_all, hp, hc]
  | cons x xs ih =>
    simp only [nested.nested_all, Bool.and_eq_true, decide_eq_true_eq, List.all_eq_true] at hxs
    obtain ⟨⟨⟨h1, h2⟩, h3⟩, h4⟩ := hxs
    simp only [List.cons_append, nested.nested_all, Bool.and_eq_true, decide_eq_true_eq,
      List.all_eq_true]
    refine ⟨⟨⟨h1, h2⟩, ?_⟩, ih h4 (fun y hy => hall y (by simp [hy]))⟩
    intro r hr
    rcases List.mem_append.1 hr with hr | hr
    · exact h3 r hr
    · have : r = c := by simpa using hr
      subst this
      exact hall x (by simp)

theorem nested_push_back (n c : Node) (hn : nested n = true) (hc : nested c = true)
    (hd : n.depth < c.depth) (hall : ∀ x ∈ n.children, c.depth ≤ x.depth) :
    nested (n.push_back c) = true := by
  rw [nested_eq] at hn ⊢
  exact nested_all_snoc _ _ _ hn hd hc hall

theorem spine_pop (top next : Node) (below : List Node) (h : spine (top :: next :: below)) :
    spine (next.push_back top :: below) := by
  obtain ⟨ht, hd, hall, hrest⟩ := h
  cases below with
  | nil =>
    obtain ⟨hneg, hn⟩ := hrest
    exact ⟨hneg, nested_push_back next top hn ht hd hall⟩
  | cons b bs =>
    obtain ⟨hn, hb, hball, hrest⟩ := hrest
    exact ⟨nested_push_back next top hn ht hd hall, hb, hball, hrest⟩

/-- The unwinding loop on a stack that satisfies `spine` and whose top has no child
shallower than the line: it stops on such a stack, with a top shallower than the line. -/
theorem unwind_from_spine (d : Nat) (below : List Node) :
    ∀ top, spine (top :: below) → (∀ c ∈ top.children, (d : Int) ≤ c.depth) →
      ∃ top1 below1, unwind_from d top below = some (top1 :: below1) ∧
        spine (top1 :: below1) ∧ top1.depth < d ∧ ∀ c ∈ top1.children, (d : Int) ≤ c.depth := by
  induction below with
  | nil =>
    intro top h hk
    have hneg : top.depth < 0 := h.1
    exact ⟨top, [], unwind_from_stop _ _ _ (by omega), h, by omega, hk⟩
  | cons next below ih =>
    intro top h hk
    by_cases hc : (d : Int) ≤ top.depth ∧ 0 ≤ top.depth
    · have hall : ∀ c ∈ next.children, top.depth ≤ c.depth := h.2.2.1
      obtain ⟨top1, below1, h1, h2, h3, h4⟩ := ih (next.push_back top)
        (spine_pop top next below h) (by
          intro c hc2
          simp only [Node.push_back, List.mem_append, List.mem_singleton] at hc2
          rcases hc2 with hc2 | rfl
          · have := hall c hc2
            omega
          · exact hc.1)
      exact ⟨top1, below1, by rw [unwind_from_pop _ _ _ _ hc]; exact h1, h2, h3, h4⟩
    · exact ⟨top, next :: below, unwind_from_stop _ _ _ hc, h, by omega, hk⟩

theorem is_field_line_iff (line : Str) :
    is_field_line line = true ↔ is_skipped line = false ∧ ':' ∈ line ∧ '[' ∉ line := by
  simp [is_field_line, and_assoc]

/-- A field line, read from a stack that satisfies `spine` and whose top has no
children yet, pushes its node on the unwound stack; the new stack is again such
a stack. -/
theorem parse_line_spine (top : Node) (below : List Node) (line : Str)
    (hs : spine (top :: below)) (hk : top.children = [])
    (hf : is_field_line line = true) :
    ∃ n top1 below1, parse_line (top :: below) line = some (n :: top1 :: below1) ∧
      spine (n :: top1 :: below1) ∧ n.children = [] := by
  obtain ⟨hsk, hcolon, hbr⟩ := (is_field_line_iff line).1 hf
  obtain ⟨top1, below1, h1, h2, h3, h4⟩ :=
    unwind_from_spine (line_depth line) below top hs (by simp [hk])
  have hb : (find line '[').isSome = false := by rw [find_isSome]; simpa using hbr
  obtain ⟨k, hk2⟩ : ∃ k, find line ':' = some k := by
    cases hc : find line ':' with
    | none => exact absurd hcolon ((find_eq_none line ':').1 hc)
    | some k => exact ⟨k, rfl⟩
  refine ⟨field_node line k, top1, below1, ?_, ?_, rfl⟩
  · rw [parse_line_eq _ _ hsk]
    simp only [unwind, h1, hb, hk2]
    rfl
  · exact ⟨by simp [field_node, Node.new, nested_eq, nested.nested_all], h3,
      fun c hc => h4 c hc, h2⟩

theorem parse_lines_spine (lines : List Str) (hf : ∀ l ∈ lines, is_field_line l = true) :
    ∀ top below, spine (top :: below) → top.children = [] →
      ∃ top1 below1, parse_lines (top :: below) lines = some (top1 :: below1) ∧
        spine (top1 :: below1) := by
  induction lines with
  | nil => intro top below hs _; exact ⟨top, below, rfl, hs⟩
  | cons line rest ih =>
    intro top below hs hk
    obtain ⟨n, top1, below1, h1, h2, h3⟩ :=
      parse_line_spine top below line hs hk (hf line (by simp))
    obtain ⟨top2, below2, h4, h5⟩ := ih (fun l hl => hf l (by simp [hl])) n (top1 :: below1) h2 h3
    exact ⟨top2, below2, by simp only [parse_lines, h1]; exact h4, h5⟩

theorem spine_close (below : List Node) :
    ∀ top, spine (top :: below) → nested (close_from top below) = true := by
  induction below with
  | nil => intro top h; exact h.2
  | cons next below ih => intro top h; exact ih _ (spine_pop top next below h)

theorem last_smaller_all_length (ds : List Int) :
    ∀ before, (last_smaller_all before ds).length = ds.length := by
  induction ds with
  | nil => intro before; rfl
  | cons d ds ih => intro before; simp [last_smaller_all, ih]

theorem last_smaller_all_get (ds : List Int) :
    ∀ (before : List Int) (i : Nat) (hi : i < ds.length),
      (last_smaller_all before ds)[i]? = some (last_smaller (before ++ ds.take i) ds[i]) := by
  induction ds with
  | nil => intro before i hi; exact absurd hi (by simp)
  | cons d ds ih =>
    intro before i hi
    cases i with
    | zero => simp [last_smaller_all]
    | succ i =>
      simp only [last_smaller_all, List.getElem?_cons_succ, List.take_succ_cons,
        List.getElem_cons_succ]
      rw [ih (before ++ [d]) i (by simpa using hi)]
      simp

theorem spine_root : spine [root_node] :=
  ⟨by simp [root_node, Node.new], by simp [root_node, Node.new, nested_eq, nested.nested_all]⟩

theorem last_smaller_root (xs : List Int) (d : Nat) :
    last_smaller ([(-1 : Int)] ++ xs) d
      = some (match last_smaller xs d with
          | some j => j + 1
          | none => 0) := by
  rw [List.singleton_append, last_smaller_cons]
  cases last_smaller xs d with
  | none =>
    have : (-1 : Int) < (d : Int) := by omega
    simp [this]
  | some j => rfl

/-- C3: for every input made only of field lines, `parse_file` returns a tree whose
nodes below the root are, in pre-order, the nodes of the lines; and the parent of
the node of line `i` is the node of the last line before line `i` whose indentation
is strictly smaller (pre-order position `j + 1` for line `j`), or the root
(position 0) when there is no such line.  When a line is read, its node is put
after the children that the node on top of the unwound stack has so far, as its
last child.  For lines at depths 0, 1, 2, 1 the fourth node is the second child of
the first node, next to the second node. -/
theorem parent_is_last_shallower (text : Str)
    (h : ∀ l ∈ getlines text, is_field_line l = true) :
    (∃ t, parse_file text = some t ∧
      (preorder t).tail.map Node.key = (getlines text).map (fun l => (line_node l).key) ∧
      (parent_positions 0 t).length = (getlines text).length ∧
      ∀ (i : Nat) (hi : i < (getlines text).length),
        (parent_positions 0 t)[i]? = some
          (match last_smaller (((getlines text).take i).map (fun l => (line_depth l : Int)))
              (line_depth (getlines text)[i]) with
           | some j => j + 1
           | none => 0)) ∧
    (∀ (before after : List Str) (line : Str), getlines text = before ++ line :: after →
      ∃ s top below, parse_lines [root_node] before = some s ∧
        unwind (line_depth line) s = some (top :: below) ∧
        parse_lines [root_node] (before ++ [line]) = some (line_node line :: top :: below) ∧
        close (line_node line :: top :: below)
          = close (top.push_back (line_node line) :: below)) ∧
    parse_file "a: 1\n b: 2\n  c: 3\n d: 4\n".toList
      = some ⟨"root".toList, [], none, -1,
          [⟨['a'], ['1'], none, 0,
            [⟨['b'], ['2'], none, 1, [⟨['c'], ['3'], none, 2, []⟩]⟩,
             ⟨['d'], ['4'], none, 1, []⟩]⟩]⟩ := by
  refine ⟨?_, ?_, rfl⟩
  rotate_left
  · intro before after line hsplit
    have hf : is_field_line line = true := h line (by simp [hsplit])
    obtain ⟨hsk, hcolon, hbr⟩ := (is_field_line_iff line).1 hf
    obtain ⟨s, h1, h2, _⟩ := parse_lines_step before [root_node] chain_root
    obtain ⟨top, below, h3, _, _, _, h7⟩ := parse_line_unwound s line h2 hsk
    have hb : (find line '[').isSome = false := by rw [find_isSome]; simpa using hbr
    obtain ⟨k, hk⟩ : ∃ k, find line ':' = some k := by
      cases hc : find line ':' with
      | none => exact absurd hcolon ((find_eq_none line ':').1 hc)
      | some k => exact ⟨k, rfl⟩
    rw [hb, hk] at h7
    refine ⟨s, top, below, h1, h3, ?_, rfl⟩
    rw [parse_lines_append, h1]
    simp only [parse_lines, h7]
    simp [line_node, hk]
  obtain ⟨top, below, h1, _, h3, h4⟩ := parse_file_chain text
  obtain ⟨top1, below1, h5, h6⟩ :=
    parse_lines_spine (getlines text) h root_node [] spine_root rfl
  rw [h1] at h5
  simp only [Option.some.injEq, List.cons.injEq] at h5
  obtain ⟨rfl, rfl⟩ := h5
  have hn := spine_close below top h6
  have hfilter : (getlines text).filter (fun l => is_field_line l) = getlines text :=
    List.filter_eq_self.2 h
  rw [hfilter] at h4
  have hkeys : (preorder (close_from top below)).tail.map Node.key
      = (getlines text).map (fun l => (line_node l).key) := by
    simp only [keys] at h4
    rw [List.map_tail, h4]
    rfl
  have hdepth : (close_from top below).depth = -1 := by
    have := congrArg List.head? h4
    simp only [keys, preorder_eq, List.map_cons, List.head?_cons, Option.some.injEq] at this
    have := congrArg (fun k => k.2.2) this
    simpa [Node.key, root_node, Node.new] using this
  have htail : (depths (close_from top below)).tail
      = (getlines text).map (fun l => (line_depth l : Int)) := by
    have := congrArg (List.map (fun k : Str × Str × Int => k.2.2)) hkeys
    simp only [List.map_map] at this
    rw [depths, ← List.map_tail]
    refine Eq.trans ?_ (Eq.trans this ?_)
    · rfl
    · apply List.map_congr_left
      intro l _
      simp [Node.key, line_node, field_node, Node.new]
  have hspec := parents_spec (close_from top below) hn []
  rw [hdepth, htail] at hspec
  have hlen : (parent_positions 0 (close_from top below)).length = (getlines text).length := by
    have := congrArg List.length hspec
    simpa [last_smaller_all_length] using this.symm
  refine ⟨_, h3, hkeys, hlen, ?_⟩
  intro i hi
  have hget := last_smaller_all_get ((getlines text).map (fun l => (line_depth l : Int)))
    ([] ++ [(-1 : Int)]) i (by simpa using hi)
  rw [hspec] at hget
  simp only [List.length_nil, List.getElem?_map, List.nil_append, List.getElem_map,
    ← List.map_take] at hget
  rw [last_smaller_root] at hget
  cases hp : (parent_positions 0 (close_from top below))[i]? with
  | none => rw [hp] at hget; simp at hget
  | some v =>
    rw [hp] at hget
    simp only [Option.map_some', Option.some.injEq] at hget
    rw [hget]

/-- C3, on four lines at depths 0, 1, 2, 1. -/
theorem parent_is_last_shallower_witness :
    (∀ l ∈ getlines "a: 1\n b: 2\n  c: 3\n d: 4\n".toList, is_field_line l = true) ∧
    ∃ t, parse_file "a: 1\n b: 2\n  c: 3\n d: 4\n".toList = some t ∧
      (preorder t).tail.map Node.key
        = (getlines "a: 1\n b: 2\n  c: 3\n d: 4\n".toList).map (fun l => (line_node l).key) ∧
      (parent_positions 0 t).length = (getlines "a: 1\n b: 2\n  c: 3\n d: 4\n".toList).length ∧
      ∀ (i : Nat) (hi : i < (getlines "a: 1\n b: 2\n  c: 3\n d: 4\n".toList).length),
        (parent_positions 0 t)[i]? = some
          (match last_smaller
              (((getlines "a: 1\n b: 2\n  c: 3\n d: 4\n".toList).take i).map
                (fun l => (line_depth l : Int)))
              (line_depth (getlines "a: 1\n b: 2\n  c: 3\n d: 4\n".toList)[i]) with
           | some j => j + 1
           | none => 0) :=
  ⟨by decide, (parent_is_last_shallower "a: 1\n b: 2\n  c: 3\n d: 4\n".toList (by decide)).1⟩

/-! ## Node: create_node, prepend_node, lookup by name -/

theorem find_child_some (cs : List Node) (key : Str) (h : ∃ c ∈ cs, c.name = key) :
    ∃ position child, find_child cs key = some position ∧ cs[position]? = some child ∧
      child.name = key ∧ ∀ j < position, ∀ c, cs[j]? = some c → c.name ≠ key := by
  induction cs with
  | nil => obtain ⟨c, hc, _⟩ := h; exact absurd hc (by simp)
  | cons x xs ih =>
    by_cases hx : x.name = key
    · exact ⟨0, x, by simp [find_child, hx], by simp, hx, by intro j hj; omega⟩
    · obtain ⟨c, hc, hck⟩ := h
      have hmem : c ∈ xs := by
        rcases List.mem_cons.1 hc with rfl | hc
        · exact absurd hck hx
        · exact hc
      obtain ⟨p, child, h1, h2, h3, h4⟩ := ih ⟨c, hmem, hck⟩
      refine ⟨p + 1, child, by simp [find_child, hx, h1], by simpa using h2, h3, ?_⟩
      intro j hj c2 hc2
      cases j with
      | zero =>
        have : c2 = x := by simpa using hc2.symm
        rw [this]; exact hx
      | succ j => exact h4 j (by omega) c2 (by simpa using hc2)

theorem find_child_append (cs extra : List Node) (key : Str) (position : Nat)
    (h : find_child cs key = some position) :
    find_child (cs ++ extra) key = some position := by
  induction cs generalizing position with
  | nil => simp [find_child] at h
  | cons x xs ih =>
    by_cases hx : x.name = key
    · simp only [find_child, hx, if_true] at h
      have e : find_child (x :: (xs ++ extra)) key = some 0 := by simp [find_child, hx]
      rw [List.cons_append, e, ← h]
    · have e : find_child (x :: (xs ++ extra)) key
          = (find_child (xs ++ extra) key).map (· + 1) := by simp [find_child, hx]
      simp only [find_child, hx, if_false] at h
      cases hf : find_child xs key with
      | none => rw [hf] at h; simp at h
      | some q =>
        rw [hf] at h
        rw [List.cons_append, e, ih q hf]
        exact h

/-- C13: when at least one child of a node is named `key`, `get_child` and
`operator[]` with `key` refer to the first child, in child order, whose name is
exactly `key` (no child before it has that name), whatever children follow; the
node and `dummyNode` are left as they are; and after `create_node(key, v)` the
lookup of `key` still yields that same earlier child. -/
theorem lookup_first_match (n : Node) (dummyNode : Option Node) (key : Str)
    (h : ∃ c ∈ n.children, c.name = key) :
    ∃ position child,
      n.get_child dummyNode key = (Slot.child position, dummyNode) ∧
      n.subscript dummyNode key = (Slot.child position, n, dummyNode) ∧
      slot_node n dummyNode (Slot.child position) = some child ∧ child.name = key ∧
      (∀ j < position, ∀ c, n.children[j]? = some c → c.name ≠ key) ∧
      ∀ v, (n.create_node key v).subscript dummyNode key
            = (Slot.child position, n.create_node key v, dummyNode) ∧
          slot_node (n.create_node key v) dummyNode (Slot.child position) = some child := by
  obtain ⟨p, child, h1, h2, h3, h4⟩ := find_child_some n.children key h
  have hlt : p < n.children.length := by
    by_contra hge
    rw [List.getElem?_eq_none (by omega)] at h2
    exact absurd h2 (by simp)
  refine ⟨p, child, by simp [Node.get_child, h1], ?_, h2, h3, h4, ?_⟩
  · simp [Node.subscript, Node.get_child, h1, slot_node, h2]
  · intro v
    have h5 : find_child (n.create_node key v).children key = some p :=
      find_child_append _ _ _ _ h1
    have h6 : (n.create_node key v).children[p]? = some child := by
      simp only [Node.create_node, Node.push_back]
      rw [List.getElem?_append_left hlt]
      exact h2
    exact ⟨by simp [Node.subscript, Node.get_child, h5, slot_node, h6], h6⟩

/-- C13, on a node with the children a = "1", k = "2", k = "3". -/
theorem lookup_first_match_witness :
    (∃ c ∈ (Node.mk ['p'] [] none 0
        [Node.new ['a'] ['1'] 1, Node.new ['k'] ['2'] 1, Node.new ['k'] ['3'] 1]).children,
      c.name = ['k']) ∧
    ∃ position child,
      (Node.mk ['p'] [] none 0
          [Node.new ['a'] ['1'] 1, Node.new ['k'] ['2'] 1, Node.new ['k'] ['3'] 1]).get_child
        none ['k'] = (Slot.child position, none) ∧
      (Node.mk ['p'] [] none 0
          [Node.new ['a'] ['1'] 1, Node.new ['k'] ['2'] 1, Node.new ['k'] ['3'] 1]).subscript
        none ['k']
        = (Slot.child position, Node.mk ['p'] [] none 0
            [Node.new ['a'] ['1'] 1, Node.new ['k'] ['2'] 1, Node.new ['k'] ['3'] 1], none) ∧
      slot_node (Node.mk ['p'] [] none 0
          [Node.new ['a'] ['1'] 1, Node.new ['k'] ['2'] 1, Node.new ['k'] ['3'] 1])
        none (Slot.child position) = some child ∧ child.name = ['k'] ∧
      (∀ j < position, ∀ c, (Node.mk ['p'] [] none 0
          [Node.new ['a'] ['1'] 1, Node.new ['k'] ['2'] 1, Node.new ['k'] ['3'] 1]).children[j]?
          = some c → c.name ≠ ['k']) ∧
      ∀ v, ((Node.mk ['p'] [] none 0
            [Node.new ['a'] ['1'] 1, Node.new ['k'] ['2'] 1, Node.new ['k'] ['3'] 1]).create_node
            ['k'] v).subscript none ['k']
            = (Slot.child position, (Node.mk ['p'] [] none 0
                [Node.new ['a'] ['1'] 1, Node.new ['k'] ['2'] 1,
                 Node.new ['k'] ['3'] 1]).create_node ['k'] v, none) ∧
          slot_node ((Node.mk ['p'] [] none 0
            [Node.new ['a'] ['1'] 1, Node.new ['k'] ['2'] 1, Node.new ['k'] ['3'] 1]).create_node
            ['k'] v) none (Slot.child position) = some child :=
  ⟨⟨Node.new ['k'] ['2'] 1, by simp, rfl⟩,
   lookup_first_match _ none ['k'] ⟨Node.new ['k'] ['2'] 1, by simp, rfl⟩⟩

theorem find_child_none (cs : List Node) (key : Str) (h : ∀ c ∈ cs, c.name ≠ key) :
    find_child cs key = none := by
  induction cs with
  | nil => rfl
  | cons x xs ih =>
    have hx : x.name ≠ key := h x (by simp)
    simp [find_child, hx, ih (fun c hc => h c (by simp [hc]))]

theorem subscript_miss (n : Node) (dummyNode : Option Node) (key : Str)
    (h : ∀ c ∈ n.children, c.name ≠ key) :
    n.subscript dummyNode key = (Slot.dummy, n, some (dummyNode.getD Node.default)) := by
  have hf := find_child_none n.children key h
  cases dummyNode with
  | none => simp [Node.subscript, Node.get_child, hf, slot_node]
  | some d => simp [Node.subscript, Node.get_child, hf, slot_node]

/-- C14 (counterexample): two failed lookups on a node without children, with
`create_node` called on the node that the first one yields: the second lookup yields
a node with one child, not an empty node. -/
theorem lookup_miss_not_fresh :
    (Node.new ['p'] [] 0).subscript none ['x'] = (Slot.dummy, Node.new ['p'] [] 0, some Node.default) ∧
    slot_update (Node.new ['p'] [] 0) (some Node.default) (fun m => m.create_node ['a'] ['b'])
        Slot.dummy
      = (Node.new ['p'] [] 0, some (Node.default.create_node ['a'] ['b'])) ∧
    (Node.new ['p'] [] 0).subscript (some (Node.default.create_node ['a'] ['b'])) ['y']
      = (Slot.dummy, Node.new ['p'] [] 0, some (Node.default.create_node ['a'] ['b'])) ∧
    (Node.default.create_node ['a'] ['b']).children.length = 1 :=
  ⟨rfl, rfl, rfl, rfl⟩

/-- C14 (amended): every failed by-name lookup, on whatever node, yields the one
`static` `dummyNode`; it is an empty node (empty name, empty value, no children)
when nothing has changed it since its initialisation, and a change made to the node
that one failed lookup yields (for instance `create_node` on it) is what every later
failed lookup yields. -/
theorem lookup_miss_shared (n1 n2 : Node) (dummyNode : Option Node) (k1 k2 : Str)
    (f : Node → Node)
    (h1 : ∀ c ∈ n1.children, c.name ≠ k1) (h2 : ∀ c ∈ n2.children, c.name ≠ k2) :
    (n1.subscript dummyNode k1).1 = Slot.dummy ∧
    slot_node n1 (n1.subscript dummyNode k1).2.2 Slot.dummy
      = some (dummyNode.getD Node.default) ∧
    (dummyNode = none → slot_node n1 (n1.subscript dummyNode k1).2.2 Slot.dummy
      = some ⟨[], [], none, -1, []⟩) ∧
    (n2.subscript (slot_update n1 (n1.subscript dummyNode k1).2.2 f Slot.dummy).2 k2).1
      = Slot.dummy ∧
    slot_node n2
        (n2.subscript (slot_update n1 (n1.subscript dummyNode k1).2.2 f Slot.dummy).2 k2).2.2
        Slot.dummy
      = some (f (dummyNode.getD Node.default)) := by
  rw [subscript_miss n1 dummyNode k1 h1]
  simp only [slot_update, Option.map_some', subscript_miss n2 _ k2 h2, slot_node,
    Option.getD_some, true_and, and_true]
  intro hd
  rw [hd]
  rfl

/-- C14, on two failed lookups on a node whose only child is named "a". -/
theorem lookup_miss_shared_witness :
    (∀ c ∈ ((Node.new ['p'] [] 0).create_node ['a'] ['1']).children, c.name ≠ ['x']) ∧
    (∀ c ∈ ((Node.new ['p'] [] 0).create_node ['a'] ['1']).children, c.name ≠ ['y']) ∧
    slot_node ((Node.new ['p'] [] 0).create_node ['a'] ['1'])
        (((Node.new ['p'] [] 0).create_node ['a'] ['1']).subscript
          (slot_update ((Node.new ['p'] [] 0).create_node ['a'] ['1'])
            (((Node.new ['p'] [] 0).create_node ['a'] ['1']).subscript none ['x']).2.2
            (fun m => m.create_node ['u'] ['v']) Slot.dummy).2 ['y']).2.2
        Slot.dummy
      = some ((fun m : Node => m.create_node ['u'] ['v']) ((none : Option Node).getD Node.default)) :=
  ⟨by simp [Node.create_node, Node.push_back, Node.new],
   by simp [Node.create_node, Node.push_back, Node.new],
   (lookup_miss_shared ((Node.new ['p'] [] 0).create_node ['a'] ['1'])
      ((Node.new ['p'] [] 0).create_node ['a'] ['1']) none ['x'] ['y']
      (fun m => m.create_node ['u'] ['v'])
      (by simp [Node.create_node, Node.push_back, Node.new])
      (by simp [Node.create_node, Node.push_back, Node.new])).2.2.2.2⟩

/-- C18 (counterexample): `operator[]` with a name that no child carries, on a node
with one child: afterwards the node still has one child. -/
theorem subscript_miss_attaches_nothing :
    ((Node.new ['p'] [] 0).create_node ['a'] ['1']).children.length = 1 ∧
    (((Node.new ['p'] [] 0).create_node ['a'] ['1']).subscript none ['x']).2.1.children.length
      = 1 ∧
    (((Node.new ['p'] [] 0).create_node ['a'] ['1']).subscript none ['x']).1 = Slot.dummy :=
  ⟨rfl, rfl, rfl⟩

/-- C18 (amended): for every node and every name absent from its children,
`operator[](name)` attaches nothing: the node is unchanged and has as many children
as before, and the reference returned refers to the `static` `dummyNode`. -/
theorem subscript_miss_unchanged (n : Node) (dummyNode : Option Node) (name : Str)
    (h : ∀ c ∈ n.children, c.name ≠ name) :
    (n.subscript dummyNode name).2.1 = n ∧
    (n.subscript dummyNode name).2.1.children.length = n.children.length ∧
    (n.subscript dummyNode name).1 = Slot.dummy := by
  rw [subscript_miss n dummyNode name h]
  exact ⟨rfl, rfl, rfl⟩

/-- C18, on a node whose only child is named "a" and the name "x". -/
theorem subscript_miss_unchanged_witness :
    (∀ c ∈ ((Node.new ['p'] [] 0).create_node ['a'] ['1']).children, c.name ≠ ['x']) ∧
    (((Node.new ['p'] [] 0).create_node ['a'] ['1']).subscript none ['x']).2.1
      = (Node.new ['p'] [] 0).create_node ['a'] ['1'] ∧
    (((Node.new ['p'] [] 0).create_node ['a'] ['1']).subscript none ['x']).2.1.children.length
      = ((Node.new ['p'] [] 0).create_node ['a'] ['1']).children.length ∧
    (((Node.new ['p'] [] 0).create_node ['a'] ['1']).subscript none ['x']).1 = Slot.dummy :=
  ⟨by simp [Node.create_node, Node.push_back, Node.new],
   subscript_miss_unchanged _ none ['x'] (by simp [Node.create_node, Node.push_back, Node.new])⟩

/-! ## Node: lookup by position, as_int, copies -/

/-- C15 (counterexample): on a node with one child, `operator[](1)` and
`operator[](-1)` are accesses outside the children without any check: undefined
behaviour, not an index-out-of-range error. -/
theorem subscript_index_no_error :
    ((Node.new ['p'] [] 0).create_node ['a'] ['1']).subscript_index 1 = Outcome.undefined ∧
    ((Node.new ['p'] [] 0).create_node ['a'] ['1']).subscript_index (-1) = Outcome.undefined ∧
    ((Node.new ['p'] [] 0).create_node ['a'] ['1']).subscript_index 0
      = Outcome.value (Node.new ['a'] ['1'] 1) :=
  ⟨rfl, rfl, rfl⟩

/-- C15 (amended): for every node with `k` children (fewer than 2^63, the most a
`std::deque` can hold) and every `int` `i`, `operator[](i)` returns the `i`-th child
(0-based, in child order) when `0 ≤ i < k`; when `i < 0` or `i ≥ k` the access is
unchecked, its behaviour is undefined, and in no case is an error raised. -/
theorem subscript_index_unchecked (n : Node) (index : Int)
    (hint : -2 ^ 31 ≤ index ∧ index < 2 ^ 31) (hsize : n.children.length < 2 ^ 63) :
    (0 ≤ index ∧ index < n.children.length →
      ∃ child, n.children[index.toNat]? = some child ∧
        n.subscript_index index = Outcome.value child) ∧
    (index < 0 ∨ (n.children.length : Int) ≤ index →
      n.subscript_index index = Outcome.undefined) ∧
    ∀ e, n.subscript_index index ≠ Outcome.throws e := by
  refine ⟨?_, ?_, ?_⟩
  · intro h
    have hlt : index.toNat < n.children.length := by omega
    have hi : (index % 2 ^ 64).toNat = index.toNat := by
      rw [Int.emod_eq_of_lt h.1 (by omega)]
    refine ⟨n.children[index.toNat], by simp, ?_⟩
    simp only [Node.subscript_index, hi]
    rw [List.getElem?_eq_getElem hlt]
  · intro h
    have hge : n.children.length ≤ (index % 2 ^ 64).toNat := by omega
    simp only [Node.subscript_index]
    rw [List.getElem?_eq_none hge]
  · intro e
    simp only [Node.subscript_index]
    split <;> simp

/-- C15, on a node with one child and the index 0. -/
theorem subscript_index_unchecked_witness :
    (-2 ^ 31 ≤ (0 : Int) ∧ (0 : Int) < 2 ^ 31) ∧
    ((Node.new ['p'] [] 0).create_node ['a'] ['1']).children.length < 2 ^ 63 ∧
    ∀ e, ((Node.new ['p'] [] 0).create_node ['a'] ['1']).subscript_index 0
      ≠ Outcome.throws e :=
  ⟨by decide, by decide,
   (subscript_index_unchecked ((Node.new ['p'] [] 0).create_node ['a'] ['1']) 0
      (by decide) (by decide)).2.2⟩

/-- C16 (failing input): the value "99999999999" is a numeral outside the `int`
range; `std::stoi` throws `std::out_of_range`, which `as_int` does not catch, so the
exception leaves `as_int` instead of 0 being returned.  A value without digits gives
0 and a numeral in range gives its number. -/
theorem as_int_out_of_range_escapes :
    (Node.new ['n'] "99999999999".toList 0).as_int = Outcome.throws Exception.out_of_range ∧
    (Node.new ['n'] "2147483648".toList 0).as_int = Outcome.throws Exception.out_of_range ∧
    (Node.new ['n'] "abc".toList 0).as_int = Outcome.value 0 ∧
    (Node.new ['n'] "100".toList 0).as_int = Outcome.value 100 ∧
    (Node.new ['n'] "-2147483648".toList 0).as_int = Outcome.value (-2147483648) := by
  decide

theorem copy_eq_unflag (n : Node) : n.copy = unflag n := by
  refine Node.rec
    (motive_1 := fun n => n.copy = unflag n)
    (motive_2 := fun cs => Node.copy.copy_all cs = unflag.unflag_all cs)
    ?_ ?_ ?_ n
  · intro name value list depth children ih
    simp [Node.copy, unflag, ih]
  · rfl
  · intro head tail ih1 ih2
    simp [Node.copy.copy_all, unflag.unflag_all, ih1, ih2]

/-- C17 (failing input): in the tree parsed from the two lines `items:` and ` [` the
node `items` has its list flag set; in the copy of the tree made by the copy
constructor, and in the children made by a copy assignment, the flag of `items` is
not set (the field is left uninitialised). -/
theorem copy_loses_list_flag :
    parse_file "items:\n [\n".toList
      = some ⟨"root".toList, [], none, -1, [⟨"items".toList, [], some true, 0, []⟩]⟩ ∧
    (parse_file "items:\n [\n".toList).map Node.copy
      = some ⟨"root".toList, [], none, -1, [⟨"items".toList, [], none, 0, []⟩]⟩ ∧
    (parse_file "items:\n [\n".toList).map (fun t => Node.assign Node.default t)
      = some ⟨"root".toList, [], none, -1, [⟨"items".toList, [], none, 0, []⟩]⟩ :=
  ⟨rfl, rfl, rfl⟩

/-! ## parse_file: root, depths and the parent stack -/

theorem keys_ne_nil (n : Node) : keys n ≠ [] := by
  simp [keys, preorder_eq]

theorem stack_keys_ne_nil (s : List Node) (h : s ≠ []) : stack_keys s ≠ [] := by
  cases s with
  | nil => exact absurd rfl h
  | cons top below => simp [stack_keys, keys_ne_nil]

/-- The first key of a stack is the key of its bottom entry. -/
theorem stack_keys_head (s : List Node) (h : s ≠ []) :
    (stack_keys s).head? = s.getLast?.map Node.key := by
  induction s with
  | nil => exact absurd rfl h
  | cons top below ih =>
    cases below with
    | nil => simp [stack_keys, keys, preorder_eq]
    | cons next rest =>
      have hne : stack_keys (next :: rest) ≠ [] := stack_keys_ne_nil _ (by simp)
      rw [stack_keys, List.head?_append_of_ne_nil _ hne, ih (by simp)]
      simp [List.getLast?_cons_cons]

theorem bottom_of_keys (s : List Node) (rest : List (Str × Str × Int)) (h : s ≠ [])
    (hk : stack_keys s = stack_keys [root_node] ++ rest) :
    ∃ bottom, s.getLast? = some bottom ∧ bottom.name = "root".toList ∧ bottom.value = [] ∧
      bottom.depth = -1 := by
  have hh := stack_keys_head s h
  rw [hk] at hh
  simp only [stack_keys, keys, preorder_eq, List.nil_append, List.map_cons, List.cons_append,
    List.head?_cons] at hh
  cases hl : s.getLast? with
  | none => rw [hl] at hh; simp at hh
  | some b =>
    rw [hl] at hh
    simp only [Option.map_some', Option.some.injEq, Node.key, Prod.mk.injEq] at hh
    exact ⟨b, rfl, hh.1.symm, hh.2.1.symm, hh.2.2.symm⟩

theorem depth_incr_pairs (n : Node) :
    depth_incr n = true → ∀ p ∈ preorder n, ∀ c ∈ p.children, p.depth < c.depth := by
  refine Node.rec
    (motive_1 := fun n => depth_incr n = true →
      ∀ p ∈ preorder n, ∀ c ∈ p.children, p.depth < c.depth)
    (motive_2 := fun cs => ∀ d : Int, depth_incr.incr_all d cs = true →
      (∀ c ∈ cs, d < c.depth) ∧
      ∀ p ∈ preorder.preorder_all cs, ∀ c ∈ p.children, p.depth < c.depth)
    ?_ ?_ ?_ n
  · intro name value list depth children ih h p hp c hc
    have h2 := ih depth (by simpa [depth_incr] using h)
    rw [preorder_eq] at hp
    rcases List.mem_cons.1 hp with rfl | hp
    · exact h2.1 c hc
    · exact h2.2 p hp c hc
  · intro d _
    exact ⟨fun c hc => absurd hc (by simp), fun p hp => absurd hp (by simp [preorder.preorder_all])⟩
  · intro head tail ih1 ih2 d h
    simp only [depth_incr.incr_all, Bool.and_eq_true, decide_eq_true_eq] at h
    obtain ⟨⟨hd, hh⟩, ht⟩ := h
    have h2 := ih2 d ht
    refine ⟨?_, ?_⟩
    · intro c hc
      rcases List.mem_cons.1 hc with rfl | hc
      · omega
      · exact h2.1 c hc
    · intro p hp c hc
      simp only [preorder.preorder_all, List.mem_append] at hp
      rcases hp with hp | hp
      · exact ih1 hh p hp c hc
      · exact h2.2 p hp c hc

/-- C19: for every text, `parse_file` returns a tree whose root is named "root",
has an empty value and depth -1; the depths of the other nodes are, in pre-order,
the numbers of leading spaces and tabs of the field lines they come from; the depth
of every child is strictly greater than the depth of its parent; and while the lines
are read the parent stack is never empty: after any number of lines, and after the
unwinding to any indentation from there, `root` is at its bottom. -/
theorem parse_file_strict_depths (text : Str) :
    (∃ t, parse_file text = some t ∧
      t.name = "root".toList ∧ t.value = [] ∧ t.depth = -1 ∧
      (preorder t).tail.map Node.depth
        = ((getlines text).filter (fun l => is_field_line l)).map
            (fun l => (line_depth l : Int)) ∧
      ∀ p ∈ preorder t, ∀ c ∈ p.children, p.depth < c.depth) ∧
    ∀ before after : List Str, getlines text = before ++ after →
      ∃ s bottom,
        parse_lines [root_node] before = some s ∧ s.getLast? = some bottom ∧
        bottom.name = "root".toList ∧ bottom.depth = -1 ∧
        ∀ d : Nat, ∃ top below, unwind d s = some (top :: below) ∧
          (top :: below).getLast?.map Node.name = some "root".toList := by
  constructor
  · obtain ⟨top, below, _, h2, h3, h4⟩ := parse_file_chain text
    have hkey : (close_from top below).key = root_node.key := by
      have := congrArg List.head? h4
      simpa [keys, preorder_eq] using this
    simp only [Node.key, root_node, Node.new, Prod.mk.injEq] at hkey
    refine ⟨_, h3, hkey.1, hkey.2.1, hkey.2.2, ?_, depth_incr_pairs _ (chain_close below top h2).1⟩
    have := congrArg (List.map (fun k : Str × Str × Int => k.2.2)) (congrArg List.tail h4)
    simp only [keys, List.tail_cons, List.map_map, ← List.map_tail] at this
    refine Eq.trans ?_ (Eq.trans this ?_)
    · rfl
    · apply List.map_congr_left
      intro l _
      simp [Node.key, line_node, field_node, Node.new]
  · intro before after _
    obtain ⟨s, h1, h2, h3⟩ := parse_lines_step before [root_node] chain_root
    have hs : s ≠ [] := by rintro rfl; exact absurd h2 (by simp [chain])
    obtain ⟨bottom, hb1, hb2, _, hb4⟩ := bottom_of_keys s _ hs h3
    refine ⟨s, bottom, h1, hb1, hb2, hb4, ?_⟩
    intro d
    obtain ⟨top, below, h5, _, _, h8⟩ := unwind_chain d s h2
    have hk : stack_keys (top :: below) = stack_keys s :=
      stack_keys_of_close _ _ (by simp) h8
    obtain ⟨b2, hc1, hc2, _, _⟩ := bottom_of_keys (top :: below) _ (by simp) (hk.trans h3)
    exact ⟨top, below, h5, by rw [hc1]; simp [hc2]⟩

/-! ## Re-saving: what parse_file reads from any field line -/

theorem find_get (l : Str) (x : Char) :
    ∀ k, find l x = some k → l[k]? = some x ∧ ∀ j < k, l[j]? ≠ some x := by
  induction l with
  | nil => intro k h; simp [find] at h
  | cons c rest ih =>
    intro k h
    by_cases hc : c = x
    · simp only [find, hc, if_true, Option.some.injEq] at h
      subst h
      exact ⟨by simp [hc], fun j hj => absurd hj (by omega)⟩
    · simp only [find, hc, if_false] at h
      cases hf : find rest x with
      | none => rw [hf] at h; simp at h
      | some q =>
        rw [hf] at h
        simp only [Option.map_some', Option.some.injEq] at h
        subst h
        obtain ⟨h1, h2⟩ := ih q hf
        refine ⟨by simpa using h1, ?_⟩
        intro j hj
        cases j with
        | zero => simp [hc]
        | succ j => simpa using h2 j (by omega)

theorem find_of_get (l : Str) (x : Char) :
    ∀ j, l[j]? = some x → ∃ h, h ≤ j ∧ find l x = some h := by
  induction l with
  | nil => intro j h; simp at h
  | cons c rest ih =>
    intro j h
    by_cases hc : c = x
    · exact ⟨0, by omega, by simp [find, hc]⟩
    · cases j with
      | zero => simp at h; exact absurd h hc
      | succ j =>
        obtain ⟨q, hq, hf⟩ := ih j (by simpa using h)
        exact ⟨q + 1, by omega, by simp [find, hc, hf]⟩

theorem count_blanks_get (l : Str) :
    ∀ i y, l[i]? = some y → i < count_blanks l → is_blank y = true := by
  induction l with
  | nil => intro i y h; simp at h
  | cons c rest ih =>
    intro i y h hi
    by_cases hc : is_blank c = true
    · simp only [count_blanks, hc, if_true] at hi
      cases i with
      | zero =>
        have : y = c := by simpa using h.symm
        rw [this]; exact hc
      | succ i => exact ih i y (by simpa using h) (by omega)
    · simp [count_blanks, hc] at hi

theorem count_blanks_stop (l : Str) :
    ∀ y, l[count_blanks l]? = some y → is_blank y = false := by
  induction l with
  | nil => intro y h; simp [count_blanks] at h
  | cons c rest ih =>
    intro y h
    by_cases hc : is_blank c = true
    · simp only [count_blanks, hc, if_true, List.getElem?_cons_succ] at h
      exact ih y h
    · simp only [count_blanks, hc] at h
      have : y = c := by simpa using h.symm
      rw [this]; simpa using hc

theorem mem_take_drop (l : Str) (a n : Nat) (y : Char) :
    y ∈ (l.drop a).take n ↔ ∃ j, a ≤ j ∧ j < a + n ∧ l[j]? = some y := by
  rw [List.mem_iff_getElem?]
  constructor
  · rintro ⟨i, hi⟩
    rw [List.getElem?_take] at hi
    by_cases hlt : i < n
    · rw [if_pos hlt, List.getElem?_drop] at hi
      exact ⟨a + i, by omega, by omega, hi⟩
    · rw [if_neg hlt] at hi
      exact absurd hi (by simp)
  · rintro ⟨j, h1, h2, h3⟩
    refine ⟨j - a, ?_⟩
    rw [List.getElem?_take, if_pos (by omega), List.getElem?_drop]
    rw [show a + (j - a) = j by omega]
    exact h3

theorem no_leading_blank_take_drop (l : Str) (a n : Nat)
    (h : ∀ y, l[a]? = some y → is_blank y = false) :
    no_leading_blank ((l.drop a).take n) = true := by
  cases hr : (l.drop a).take n with
  | nil => rfl
  | cons c cs =>
    have h0 : ((l.drop a).take n)[0]? = some c := by rw [hr]; simp
    rw [List.getElem?_take] at h0
    by_cases hn : 0 < n
    · rw [if_pos hn, List.getElem?_drop] at h0
      simp [no_leading_blank, h c (by simpa using h0)]
    · rw [if_neg hn] at h0
      exact absurd h0 (by simp)

theorem size_sub_le (a b : Nat) (h : b ≤ a) : size_sub a b ≤ a - b := by
  simp only [size_sub]
  have : a + 2 ^ 64 - b = (a - b) + 2 ^ 64 := by omega
  rw [this, Nat.add_mod_right]
  exact Nat.mod_le _ _

/-- The name and the value that `parse_file` takes from a field line (without
newline, shorter than 2^64) can be written and read back. -/
theorem line_node_text_ok (l : Str) (hf : is_field_line l = true) (hnl : '\n' ∉ l)
    (hlen : l.length < 2 ^ 64) :
    text_ok (line_node l).name (line_node l).value = true := by
  obtain ⟨_, hcolon, hbr⟩ := (is_field_line_iff l).1 hf
  obtain ⟨c, hc⟩ : ∃ c, find l ':' = some c := by
    cases hc : find l ':' with
    | none => exact absurd hcolon ((find_eq_none l ':').1 hc)
    | some c => exact ⟨c, rfl⟩
  obtain ⟨hc1, hc2⟩ := find_get l ':' c hc
  have hclt : c < l.length := (List.getElem?_eq_some.1 hc1).1
  have hd : line_depth l = count_blanks l := by simp [line_depth, skip_blanks]
  have hdc : count_blanks l ≤ c := by
    by_contra hlt
    have := count_blanks_get l c ':' hc1 (by omega)
    exact absurd this (by decide)
  have hname : (line_node l).name
      = (l.drop (count_blanks l)).take (size_sub c (count_blanks l)) := by
    simp [line_node, hc, field_node, Node.new, field_name, substr, hd]
  have hvalue : ∃ n2, (line_node l).value = (l.drop (skip_blanks l (c + 1))).take n2 ∧
      ∀ h, find l '#' = some h → n2 = size_sub h (skip_blanks l (c + 1)) := by
    refine ⟨size_sub (match find l '#' with
        | some p => p
        | none => l.length) (skip_blanks l (c + 1)),
      by simp only [line_node, hc, Option.getD_some, field_node, Node.new,
        field_value, substr], ?_⟩
    intro h hh
    simp [hh]
  obtain ⟨n2, hvalue, hn2⟩ := hvalue
  have hb : skip_blanks l (c + 1) = c + 1 + count_blanks (l.drop (c + 1)) := rfl
  have hn1 : size_sub c (count_blanks l) ≤ c - count_blanks l := size_sub_le _ _ hdc
  have hsub : ∀ (a n : Nat) (y : Char), y ∈ (l.drop a).take n → y ∈ l :=
    fun a n y hy => List.mem_of_mem_drop (List.mem_of_mem_take hy)
  simp only [text_ok, Bool.and_eq_true, Bool.or_eq_true, Bool.not_eq_true',
    decide_eq_false_iff_not, decide_eq_true_eq]
  refine ⟨⟨⟨⟨⟨⟨⟨⟨?_, ?_⟩, ?_⟩, ?_⟩, ?_⟩, ?_⟩, ?_⟩, ?_⟩, ?_⟩
  · rw [hname, mem_take_drop]
    rintro ⟨j, _, h2, h3⟩
    exact hc2 j (by omega) h3
  · rw [hname]; exact fun hy => hbr (hsub _ _ _ hy)
  · rw [hname]; exact fun hy => hnl (hsub _ _ _ hy)
  · rw [hname]; exact no_leading_blank_take_drop l _ _ (count_blanks_stop l)
  · rw [hvalue]; exact fun hy => hbr (hsub _ _ _ hy)
  · rw [hvalue]; exact fun hy => hnl (hsub _ _ _ hy)
  · rw [hvalue]
    apply no_leading_blank_take_drop
    intro y hy
    apply count_blanks_stop (l.drop (c + 1)) y
    rw [List.getElem?_drop, ← hb]
    exact hy
  · by_cases hv : '#' ∈ (line_node l).value
    · left
      rw [hvalue, mem_take_drop] at hv
      obtain ⟨j, hj1, hj2, hj3⟩ := hv
      obtain ⟨h, hhj, hfind⟩ := find_of_get l '#' j hj3
      obtain ⟨hh1, _⟩ := find_get l '#' h hfind
      have hn2e := hn2 h hfind
      have hhb : h < skip_blanks l (c + 1) := by
        by_contra hge
        have := size_sub_le h (skip_blanks l (c + 1)) (by omega)
        omega
      have hhc : h < c := by
        by_contra hge
        have hne : h ≠ c := by
          intro e
          rw [e, hc1] at hh1
          exact absurd hh1 (by decide)
        have hblank := count_blanks_get (l.drop (c + 1)) (h - (c + 1)) '#'
          (by rw [List.getElem?_drop, show c + 1 + (h - (c + 1)) = h by omega]; exact hh1)
          (by omega)
        exact absurd hblank (by decide)
      have hdh : count_blanks l ≤ h := by
        by_contra hlt
        have := count_blanks_get l h '#' hh1 (by omega)
        exact absurd this (by decide)
      have hexact : size_sub c (count_blanks l) = c - count_blanks l := by
        have := size_sub_add (c - count_blanks l) (count_blanks l) (by omega)
        rwa [show count_blanks l + (c - count_blanks l) = c by omega] at this
      rw [hname, hexact, mem_take_drop]
      exact ⟨h, hdh, by omega, hh1⟩
    · right; exact hv
  · have l1 : (line_node l).name.length ≤ c - count_blanks l := by
      rw [hname, List.length_take]; omega
    have l2 : (line_node l).value.length ≤ l.length - (c + 1) := by
      rw [hvalue, List.length_take, List.length_drop, hb]; omega
    omega

/-! ## Re-saving: parsing the lines written for any tree -/

theorem find_append_mem (xs ys : Str) (c : Char) (h : c ∈ xs) :
    find (xs ++ ys) c = find xs c := by
  induction xs with
  | nil => exact absurd h (by simp)
  | cons x xs ih =>
    by_cases hx : x = c
    · have e : find (x :: (xs ++ ys)) c = some 0 := by simp [find, hx]
      rw [List.cons_append, e]
      simp [find, hx]
    · have hmem : c ∈ xs := by
        rcases List.mem_cons.1 h with rfl | hm
        · exact absurd rfl hx
        · exact hm
      have e : find (x :: (xs ++ ys)) c = (find (xs ++ ys) c).map (· + 1) := by
        simp [find, hx]
      rw [List.cons_append, e, ih hmem]
      simp [find, hx]

/-- What `parse_file` reads on the line written at nesting level `k` for a node
whose name and value satisfy `text_ok` (and whose name does not start with `'#'`
when `k = 0`): the same as in `node_text_facts`, also when the name has a `'#'`. -/
theorem node_text_facts_any (k : Nat) (n : Node) (hok : text_ok n.name n.value = true)
    (hk : k ≠ 0 ∨ n.name.head? ≠ some '#') :
    is_skipped (node_text k n) = false ∧ line_depth (node_text k n) = k ∧
    find (node_text k n) '[' = none ∧
    find (node_text k n) ':' = some (k + n.name.length) ∧
    field_node (node_text k n) (k + n.name.length) = Node.new n.name n.value k ∧
    '\n' ∉ node_text k n := by
  simp only [text_ok, Bool.and_eq_true, Bool.or_eq_true, Bool.not_eq_true',
    decide_eq_false_iff_not, decide_eq_true_eq] at hok
  obtain ⟨⟨⟨⟨⟨⟨⟨⟨n1, n3⟩, n4⟩, n5⟩, v2⟩, v3⟩, v4⟩, himp⟩, hlen⟩ := hok
  have hdepth : line_depth (node_text k n) = k := by
    simp [line_depth, skip_blanks, node_text, count_blanks_tabs, count_blanks_name _ _ n5]
  have htab : ∀ c : Char, c ≠ '\t' → c ∉ List.replicate k '\t' := by
    intro c hc hm
    exact hc (List.eq_of_mem_replicate hm)
  have hcolon : find (node_text k n) ':' = some (k + n.name.length) := by
    simp only [node_text]
    rw [find_append _ _ _ (htab ':' (by decide)), find_append _ _ _ n1]
    simp [find]
    omega
  refine ⟨?_, hdepth, ?_, hcolon, ?_, ?_⟩
  · simp only [is_skipped, Bool.or_eq_false_iff, decide_eq_false_iff_not]
    constructor
    · simp [node_text]
    · cases k with
      | succ k => simp [node_text, List.replicate_succ]
      | zero =>
        cases hname : n.name with
        | nil => simp [node_text, hname]
        | cons c cs =>
          have : c ≠ '#' := by
            rcases hk with hk | hk
            · exact absurd rfl hk
            · intro e; apply hk; simp [hname, e]
          simp [node_text, hname, this]
  · rw [find_eq_none]
    simp only [node_text, List.mem_append, List.mem_cons, not_or]
    exact ⟨htab '[' (by decide), n3, by decide, by decide, v2⟩
  · have hname : field_name (node_text k n) (k + n.name.length) = n.name := by
      simp only [field_name, hdepth, substr, size_sub_add _ _ (show n.name.length < 2 ^ 64 by omega)]
      simp [node_text]
    have hvalue : field_value (node_text k n) (k + n.name.length) = n.value := by
      have hdrop : ∀ i, (node_text k n).drop (k + n.name.length + i)
          = (':' :: ' ' :: n.value).drop i := by
        intro i
        have e : k + n.name.length + i
            = (List.replicate k '\t').length + (n.name.length + i) := by
          simp; omega
        rw [e, node_text, List.drop_append, List.drop_append]
      have hb : skip_blanks (node_text k n) (k + n.name.length + 1) = k + n.name.length + 2 := by
        simp [skip_blanks, hdrop 1, count_blanks, is_blank, count_blanks_value _ v4]
      have hl : (node_text k n).length = (k + n.name.length + 2) + n.value.length := by
        simp [node_text]; omega
      by_cases hn : '#' ∈ n.name
      · obtain ⟨j, hj⟩ : ∃ j, find n.name '#' = some j := by
          cases hf : find n.name '#' with
          | none => exact absurd hn ((find_eq_none _ _).1 hf)
          | some j => exact ⟨j, rfl⟩
        have hjlt : j < n.name.length := (List.getElem?_eq_some.1 (find_get _ _ j hj).1).1
        have hhash : find (node_text k n) '#' = some (j + k) := by
          simp only [node_text]
          rw [find_append _ _ _ (htab '#' (by decide)), find_append_mem _ _ _ hn, hj]
          simp
        have hbig : n.value.length ≤ size_sub (j + k) (k + n.name.length + 2) := by
          simp only [size_sub]
          omega
        simp only [field_value, hb, hhash, substr, hdrop 2]
        simp only [List.drop_succ_cons, List.drop_zero]
        exact List.take_of_length_le hbig
      · have v1 : '#' ∉ n.value := by
          rcases himp with h | h
          · exact absurd h hn
          · exact h
        have hhash : find (node_text k n) '#' = none := by
          rw [find_eq_none]
          simp only [node_text, List.mem_append, List.mem_cons, not_or]
          exact ⟨htab '#' (by decide), hn, by decide, by decide, v1⟩
        simp only [field_value, hb, hhash, hl, substr,
          size_sub_add _ _ (show n.value.length < 2 ^ 64 by omega), hdrop 2]
        simp
    simp [field_node, hname, hvalue, hdepth]
  · simp only [node_text, List.mem_append, List.mem_cons, not_or]
    exact ⟨htab '\n' (by decide), n4, by decide, by decide, v3⟩

theorem parse_line_written_any (k : Nat) (n : Node) (hok : text_ok n.name n.value = true)
    (hk : k ≠ 0 ∨ n.name.head? ≠ some '#') (s below : List Node) (top : Node)
    (hs : unwind k s = some (top :: below)) :
    parse_line s (node_text k n) = some (Node.new n.name n.value k :: top :: below) := by
  obtain ⟨f1, f2, f3, f4, f5, _⟩ := node_text_facts_any k n hok hk
  rw [parse_line_eq s _ f1, f2, hs]
  simp only [f3, f4, f5]
  rfl

/-- Parsing the lines written for a writable subtree at nesting level `k`, and for a
list of such subtrees, from a stack that unwinds at `k` to `top :: below`: afterwards
the stack unwinds at `k` to the same entries with the subtrees, every depth replaced
by the nesting level, added to the children of `top`. -/
theorem parse_written_any (n : Node) :
    ∀ (k : Nat) (top : Node) (below s : List Node), writable k n = true →
      unwind k s = some (top :: below) → top.depth < k →
      ∃ s1, parse_lines s ((with_levels k n).map (fun p => node_text p.1 p.2)) = some s1 ∧
        unwind k s1 = some (top.push_back (relevel k n) :: below) := by
  refine Node.rec
    (motive_1 := fun n => ∀ (k : Nat) (top : Node) (below s : List Node),
      writable k n = true → unwind k s = some (top :: below) → top.depth < k →
      ∃ s1, parse_lines s ((with_levels k n).map (fun p => node_text p.1 p.2)) = some s1 ∧
        unwind k s1 = some (top.push_back (relevel k n) :: below))
    (motive_2 := fun cs => ∀ (k : Nat) (top : Node) (below s : List Node),
      writable.writable_all k cs = true → unwind k s = some (top :: below) → top.depth < k →
      ∃ s1, parse_lines s ((with_levels.levels_all k cs).map (fun p => node_text p.1 p.2))
          = some s1 ∧
        unwind k s1
          = some ({ top with children := top.children ++ relevel.relevel_all k cs } :: below))
    ?_ ?_ ?_ n
  · intro name value list depth children ih k top below s hwf hs htop
    simp only [writable, Bool.and_eq_true, Bool.or_eq_true, decide_eq_true_eq] at hwf
    obtain ⟨⟨hok, hk⟩, hcs⟩ := hwf
    have hline := parse_line_written_any k ⟨name, value, list, depth, children⟩ hok hk
      s below top hs
    have hstop : unwind ((k + 1 : Nat) : Int) (Node.new name value k :: top :: below)
        = some (Node.new name value k :: top :: below) :=
      unwind_from_stop _ _ _ (by simp [Node.new])
    obtain ⟨s1, h1, h2⟩ := ih (k + 1) (Node.new name value k) (top :: below) _
      hcs hstop (by simp [Node.new])
    refine ⟨s1, ?_, ?_⟩
    · rw [with_levels_eq]
      simp only [List.map_cons, parse_lines, hline]
      exact h1
    · rw [unwind_mono k ((k + 1 : Nat) : Int) (by simp) s1 _ h2]
      simp only [unwind]
      rw [unwind_from_pop _ _ _ _ (by simp [Node.new]),
        unwind_from_stop _ _ _ (by simp [Node.push_back]; omega)]
      simp [relevel, Node.new]
  · intro k top below s _ hs _
    refine ⟨s, rfl, ?_⟩
    rw [hs]
    simp only [relevel.relevel_all, List.append_nil]
    cases top
    rfl
  · intro head tail ih1 ih2 k top below s hwf hs htop
    simp only [writable.writable_all, Bool.and_eq_true] at hwf
    obtain ⟨s1, h1, h2⟩ := ih1 k top below s hwf.1 hs htop
    obtain ⟨s2, h3, h4⟩ := ih2 k (top.push_back (relevel k head)) below s1 hwf.2 h2
      (by simpa [Node.push_back] using htop)
    refine ⟨s2, ?_, ?_⟩
    · simp only [with_levels.levels_all, List.map_append]
      rw [parse_lines_append, h1]
      exact h3
    · rw [h4]
      simp [Node.push_back, relevel.relevel_all]

theorem parse_written_any_all (cs : List Node) :
    ∀ (k : Nat) (top : Node) (below s : List Node), writable.writable_all k cs = true →
      unwind k s = some (top :: below) → top.depth < k →
      ∃ s1, parse_lines s ((with_levels.levels_all k cs).map (fun p => node_text p.1 p.2))
          = some s1 ∧
        unwind k s1
          = some ({ top with children := top.children ++ relevel.relevel_all k cs } :: below) := by
  induction cs with
  | nil =>
    intro k top below s _ hs _
    refine ⟨s, rfl, ?_⟩
    rw [hs]
    simp only [relevel.relevel_all, List.append_nil]
    cases top
    rfl
  | cons head tail ih =>
    intro k top below s hwf hs htop
    simp only [writable.writable_all, Bool.and_eq_true] at hwf
    obtain ⟨s1, h1, h2⟩ := parse_written_any head k top below s hwf.1 hs htop
    obtain ⟨s2, h3, h4⟩ := ih k (top.push_back (relevel k head)) below s1 hwf.2 h2
      (by simpa [Node.push_back] using htop)
    refine ⟨s2, ?_, ?_⟩
    · simp only [with_levels.levels_all, List.map_append]
      rw [parse_lines_append, h1]
      exact h3
    · rw [h4]
      simp [Node.push_back, relevel.relevel_all]

theorem written_lines_any (n : Node) :
    ∀ k : Nat, writable k n = true → ∀ p ∈ with_levels k n, '\n' ∉ node_text p.1 p.2 := by
  refine Node.rec
    (motive_1 := fun n => ∀ k : Nat, writable k n = true →
      ∀ p ∈ with_levels k n, '\n' ∉ node_text p.1 p.2)
    (motive_2 := fun cs => ∀ k : Nat, writable.writable_all k cs = true →
      ∀ p ∈ with_levels.levels_all k cs, '\n' ∉ node_text p.1 p.2)
    ?_ ?_ ?_ n
  · intro name value list depth children ih k hwf p hp
    simp only [writable, Bool.and_eq_true, Bool.or_eq_true, decide_eq_true_eq] at hwf
    obtain ⟨⟨hok, hk⟩, hcs⟩ := hwf
    rw [with_levels_eq] at hp
    rcases List.mem_cons.1 hp with rfl | hp
    · exact (node_text_facts_any k ⟨name, value, list, depth, children⟩ hok hk).2.2.2.2.2
    · exact ih _ hcs p hp
  · intro k _ p hp
    simp [with_levels.levels_all] at hp
  · intro head tail ih1 ih2 k hwf p hp
    simp only [writable.writable_all, Bool.and_eq_true] at hwf
    simp only [with_levels.levels_all, List.mem_append] at hp
    rcases hp with hp | hp
    · exact ih1 k hwf.1 p hp
    · exact ih2 k hwf.2 p hp

theorem written_lines_any_all (cs : List Node) (k : Nat)
    (hwf : writable.writable_all k cs = true) :
    ∀ p ∈ with_levels.levels_all k cs, '\n' ∉ node_text p.1 p.2 := by
  induction cs with
  | nil => intro p hp; simp [with_levels.levels_all] at hp
  | cons head tail ih =>
    simp only [writable.writable_all, Bool.and_eq_true] at hwf
    intro p hp
    simp only [with_levels.levels_all, List.mem_append] at hp
    rcases hp with hp | hp
    · exact written_lines_any head k hwf.1 p hp
    · exact ih hwf.2 p hp

/-- Parsing the file written for a tree whose children are writable at level 0:
the tree with root "root" and the same nodes below it, each at the depth of its
nesting level and without list flag. -/
theorem parse_write_any (t : Node) (h : writable.writable_all 0 t.children = true) :
    parse_file (write_file t)
      = some ⟨"root".toList, [], none, -1, relevel.relevel_all 0 t.children⟩ := by
  have hlines : getlines (write_file t)
      = (with_levels.levels_all 0 t.children).map (fun p => node_text p.1 p.2) := by
    have e : write_file t
        = (((with_levels.levels_all 0 t.children).map (fun p => node_text p.1 p.2)).map
            (fun l => l ++ ['\n'])).flatten := by
      rw [write_file, write_all_levels_list, List.map_map]
      congr 1
      apply List.map_congr_left
      intro p _
      simp [node_line, node_text]
    rw [e]
    apply getlines_lines
    intro l hl
    obtain ⟨p, hp, rfl⟩ := List.mem_map.1 hl
    exact written_lines_any_all _ 0 h p hp
  obtain ⟨s1, h1, h2⟩ := parse_written_any_all t.children 0 root_node [] [root_node]
    h rfl (by decide)
  simp only [parse_file, hlines, h1]
  rw [← close_unwind _ _ _ h2]
  rfl

/-! ## Re-saving a parsed file -/

theorem write_relevel (n : Node) :
    ∀ k j : Nat, _write_nodes (relevel k n) j = _write_nodes n j := by
  refine Node.rec
    (motive_1 := fun n => ∀ k j : Nat, _write_nodes (relevel k n) j = _write_nodes n j)
    (motive_2 := fun cs => ∀ k j : Nat,
      _write_nodes.write_all (relevel.relevel_all k cs) j = _write_nodes.write_all cs j)
    ?_ ?_ ?_ n
  · intro name value list depth children ih k j
    rw [write_nodes_eq, write_nodes_eq]
    simp [relevel, node_line, ih]
  · intro k j; rfl
  · intro head tail ih1 ih2 k j
    simp [relevel.relevel_all, _write_nodes.write_all, ih1, ih2]

theorem write_relevel_all (cs : List Node) (k j : Nat) :
    _write_nodes.write_all (relevel.relevel_all k cs) j = _write_nodes.write_all cs j := by
  induction cs with
  | nil => rfl
  | cons c cs ih => simp [relevel.relevel_all, _write_nodes.write_all, write_relevel, ih]

theorem preorder_relevel (n : Node) :
    ∀ k : Nat, (preorder (relevel k n)).map (fun m => (m.name, m.value))
      = (preorder n).map (fun m => (m.name, m.value)) := by
  refine Node.rec
    (motive_1 := fun n => ∀ k : Nat,
      (preorder (relevel k n)).map (fun m => (m.name, m.value))
        = (preorder n).map (fun m => (m.name, m.value)))
    (motive_2 := fun cs => ∀ k : Nat,
      (preorder.preorder_all (relevel.relevel_all k cs)).map (fun m => (m.name, m.value))
        = (preorder.preorder_all cs).map (fun m => (m.name, m.value)))
    ?_ ?_ ?_ n
  · intro name value list depth children ih k
    rw [preorder_eq, preorder_eq]
    simp [relevel, ih]
  · intro k; rfl
  · intro head tail ih1 ih2 k
    simp [relevel.relevel_all, preorder.preorder_all, ih1, ih2]

theorem preorder_relevel_all (cs : List Node) (k : Nat) :
    (preorder.preorder_all (relevel.relevel_all k cs)).map (fun m => (m.name, m.value))
      = (preorder.preorder_all cs).map (fun m => (m.name, m.value)) := by
  induction cs with
  | nil => rfl
  | cons c cs ih => simp [relevel.relevel_all, preorder.preorder_all, preorder_relevel, ih]

theorem getlines_no_newline (text : Str) : ∀ l ∈ getlines text, '\n' ∉ l := by
  induction text with
  | nil => intro l hl; simp [getlines] at hl
  | cons c rest ih =>
    intro l hl
    by_cases hc : c = '\n'
    · simp only [getlines, hc, if_true, List.mem_cons] at hl
      rcases hl with rfl | hl
      · simp
      · exact ih l hl
    · simp only [getlines, hc, if_false] at hl
      cases hg : getlines rest with
      | nil =>
        rw [hg] at hl
        have : l = [c] := by simpa using hl
        rw [this]
        simpa using fun e : '\n' = c => hc e.symm
      | cons l0 ls =>
        rw [hg] at hl
        simp only [List.mem_cons] at hl
        rcases hl with rfl | hl
        · have h0 := ih l0 (by simp [hg])
          intro hm
          rcases List.mem_cons.1 hm with e | hm
          · exact hc e.symm
          · exact h0 hm
        · exact ih l (by simp [hg, hl])

theorem writable_of_ok (n : Node) :
    ∀ k : Nat, (∀ m ∈ preorder n, text_ok m.name m.value = true) →
      (k ≠ 0 ∨ n.name.head? ≠ some '#') → writable k n = true := by
  refine Node.rec
    (motive_1 := fun n => ∀ k : Nat, (∀ m ∈ preorder n, text_ok m.name m.value = true) →
      (k ≠ 0 ∨ n.name.head? ≠ some '#') → writable k n = true)
    (motive_2 := fun cs => ∀ k : Nat,
      (∀ m ∈ preorder.preorder_all cs, text_ok m.name m.value = true) →
      (k ≠ 0 ∨ ∀ c ∈ cs, c.name.head? ≠ some '#') → writable.writable_all k cs = true)
    ?_ ?_ ?_ n
  · intro name value list depth children ih k hall hk
    have h0 : text_ok name value = true :=
      hall ⟨name, value, list, depth, children⟩ (by rw [preorder_eq]; exact List.mem_cons_self _ _)
    have h1 : writable.writable_all (k + 1) children = true := by
      apply ih (k + 1) _ (Or.inl (by omega))
      intro m hm
      exact hall m (by rw [preorder_eq]; exact List.mem_cons_of_mem _ hm)
    simp only [writable, Bool.and_eq_true, Bool.or_eq_true, decide_eq_true_eq]
    exact ⟨⟨h0, hk⟩, h1⟩
  · intro k _ _; rfl
  · intro head tail ih1 ih2 k hall hk
    simp only [writable.writable_all, Bool.and_eq_true]
    refine ⟨ih1 k ?_ ?_, ih2 k ?_ ?_⟩
    · intro m hm; exact hall m (by simp [preorder.preorder_all, hm])
    · rcases hk with hk | hk
      · exact Or.inl hk
      · exact Or.inr (hk head (by simp))
    · intro m hm; exact hall m (by simp [preorder.preorder_all, hm])
    · rcases hk with hk | hk
      · exact Or.inl hk
      · exact Or.inr (fun c hc => hk c (by simp [hc]))

theorem writable_all_of_ok (cs : List Node) (k : Nat)
    (hall : ∀ m ∈ preorder.preorder_all cs, text_ok m.name m.value = true)
    (hk : k ≠ 0 ∨ ∀ c ∈ cs, c.name.head? ≠ some '#') :
    writable.writable_all k cs = true := by
  induction cs with
  | nil => rfl
  | cons head tail ih =>
    simp only [writable.writable_all, Bool.and_eq_true]
    refine ⟨writable_of_ok head k ?_ ?_, ih ?_ ?_⟩
    · intro m hm; exact hall m (by simp [preorder.preorder_all, hm])
    · rcases hk with hk | hk
      · exact Or.inl hk
      · exact Or.inr (hk head (by simp))
    · intro m hm; exact hall m (by simp [preorder.preorder_all, hm])
    · rcases hk with hk | hk
      · exact Or.inl hk
      · exact Or.inr (fun c hc => hk c (by simp [hc]))

/-- Every node below the root of a parsed tree has a name and a value that can be
written and read back, when the lines of the text are shorter than 2^64. -/
theorem parsed_text_ok (text : Str) (hlen : ∀ l ∈ getlines text, l.length < 2 ^ 64)
    (t : Node) (ht : parse_file text = some t) :
    ∀ m ∈ preorder.preorder_all t.children, text_ok m.name m.value = true := by
  obtain ⟨top, below, _, _, h3, h4⟩ := parse_file_chain text
  rw [h3] at ht
  simp only [Option.some.injEq] at ht
  subst ht
  intro m hm
  have hkey : m.key ∈ ((getlines text).filter (fun l => is_field_line l)).map
      (fun l => (line_node l).key) := by
    have : m.key ∈ (keys (close_from top below)).tail := by
      simp only [keys, preorder_eq, List.map_cons, List.tail_cons]
      exact List.mem_map_of_mem _ hm
    rw [h4] at this
    exact this
  obtain ⟨l, hl, hkl⟩ := List.mem_map.1 hkey
  obtain ⟨hl1, hl2⟩ := List.mem_filter.1 hl
  have hok := line_node_text_ok l hl2 (getlines_no_newline text l hl1) (hlen l hl1)
  simp only [Node.key, Prod.mk.injEq] at hkl
  rw [← hkl.1, ← hkl.2.1]
  exact hok

/-- C20 (counterexample): the line ` #x: y` gives the root a child named `#x`;
`write_file` writes it as `#x: y`, which `parse_file` then skips as a comment, so the
second write is empty. -/
theorem resave_loses_hash_name :
    (parse_file " #x: y\n".toList).map write_file = some "#x: y\n".toList ∧
    parse_file "#x: y\n".toList = some ⟨"root".toList, [], none, -1, []⟩ ∧
    write_file ⟨"root".toList, [], none, -1, []⟩ = [] :=
  ⟨rfl, rfl, rfl⟩

/-- C20 (amended): for every input text (with lines shorter than 2^64 characters)
whose parsed tree has no top-level entry with a name starting with `'#'`, writing the
parsed tree, parsing that file and writing again produces the same text, and the
tree parsed from the written file has the same nodes in the same order with the same
names and values. -/
theorem resave_stable (text : Str) (hlen : ∀ l ∈ getlines text, l.length < 2 ^ 64)
    (htop : ∀ t, parse_file text = some t → ∀ c ∈ t.children, c.name.head? ≠ some '#') :
    ∃ t t2, parse_file text = some t ∧ parse_file (write_file t) = some t2 ∧
      write_file t2 = write_file t ∧
      (preorder t2).map (fun n => (n.name, n.value))
        = (preorder t).map (fun n => (n.name, n.value)) := by
  obtain ⟨top, below, _, _, h3, h4⟩ := parse_file_chain text
  have hkey : (close_from top below).key = root_node.key := by
    have := congrArg List.head? h4
    simpa [keys, preorder_eq] using this
  simp only [Node.key, root_node, Node.new, Prod.mk.injEq] at hkey
  have hw : writable.writable_all 0 (close_from top below).children = true :=
    writable_all_of_ok _ 0 (parsed_text_ok text hlen _ h3) (Or.inr (htop _ h3))
  refine ⟨close_from top below, _, h3, parse_write_any _ hw, ?_, ?_⟩
  · simp only [write_file]
    exact write_relevel_all _ 0 0
  · rw [preorder_eq, preorder_eq]
    simp only [List.map_cons, preorder_relevel_all, hkey.1, hkey.2.1]

/-- C20, on a text with four-space indentation, an inline comment and a `'#'` inside
a name. -/
theorem resave_stable_witness :
    (∀ l ∈ getlines "player:\n    health: 100 # hp\n    a#b: c # d\n".toList,
      l.length < 2 ^ 64) ∧
    ∃ t t2, parse_file "player:\n    health: 100 # hp\n    a#b: c # d\n".toList = some t ∧
      parse_file (write_file t) = some t2 ∧ write_file t2 = write_file t ∧
      (preorder t2).map (fun n => (n.name, n.value))
        = (preorder t).map (fun n => (n.name, n.value)) :=
  ⟨by decide,
   resave_stable "player:\n    health: 100 # hp\n    a#b: c # d\n".toList (by decide)
    (by
      intro t ht c hc
      have e : parse_file "player:\n    health: 100 # hp\n    a#b: c # d\n".toList
          = some ⟨"root".toList, [], none, -1,
              [⟨"player".toList, [], none, 0,
                [⟨"health".toList, "100 ".toList, none, 4, []⟩,
                 ⟨"a#b".toList, "c # d".toList, none, 4, []⟩]⟩]⟩ := rfl
      rw [e] at ht
      simp only [Option.some.injEq] at ht
      subst ht
      simp only [List.mem_singleton] at hc
      subst hc
      decide)⟩

end cwsdata
